import Mathlib

/-!
Verification development for the SWAN DSL front end
(lexer / recursive-descent parser / semantic checker).

The definitions below are a shallow embedding of the TypeScript sources:
the current lexer (KEYWORDS table and keyword-vs-IDENT classification),
the current parser (the table/chart-aware revision, whose ButtonStmt
navigation target is optional), and the semantic checker class
(SemanticChecker, rules SR-1 through SR-9).

Global modelling conventions, applied uniformly:
* Source positions (line/col) are elided everywhere: no verified property
  concerns positions, and the checker never branches on them.
* NumberLiteral keeps the raw lexeme string.  The source stores
  parseFloat of the lexeme; no checker rule or verified property inspects
  the numeric value, only structural equality of untouched lexemes.
* A MemberExpr's object is an IdentifierExpr in the source; it is inlined
  here as the identifier's name.
* Error objects are reduced to their observable tags: a ParseError carries
  no data we reason about, and a SemanticError is identified by its rule
  code.  A JavaScript TypeError (a crash, as opposed to a thrown
  ParseError/SemanticError) is modelled as a distinct error value.
* Recursion through the token list or the AST is driven by an explicit
  fuel parameter where the source relies on general recursion; running
  out of fuel is a distinct error value that the theorems either
  quantify over or rule out.
-/

namespace Swan

/-- Binary operators of SWAN expressions (types.ts BinaryOperator). -/
inductive BinOp
  | eq | neq | lt | gt | lte | gte | andOp | orOp | plus
  deriving Repr, DecidableEq

/-- SWAN expressions (types.ts Expression), positions elided. -/
inductive Expression
  | identE (name : String)
  | memberE (object : String) (member : String)
  | strE (value : String)
  | numE (raw : String)
  | boolE (value : Bool)
  | binE (op : BinOp) (left : Expression) (right : Expression)
  | notE (operand : Expression)
  deriving Repr, DecidableEq

/-- Query parameter type annotation (types.ts QueryType). -/
inductive QType
  | stringT | numberT | booleanT
  deriving Repr, DecidableEq

/-- A bare literal (types.ts Literal), used for query default values. -/
inductive LitV
  | strL (value : String)
  | numL (raw : String)
  | boolL (value : Bool)
  deriving Repr, DecidableEq

/-- One query argument of a navigation target (types.ts QueryArg). -/
structure QueryArg where
  key : String
  value : Expression
  deriving Repr, DecidableEq

/-- Navigation target (types.ts NavTarget).  The source stores queryArgs as
undefined or a nonempty array; only nonemptiness is ever observed, so an
empty list here stands for undefined. -/
structure NavTarget where
  target : String
  queryArgs : List QueryArg
  deriving Repr, DecidableEq

/-- Outcome clause of an `on` handler (types.ts OutcomeClause). -/
structure OutcomeClause where
  outcome : String
  target : String
  deriving Repr, DecidableEq

/-- A chart data point (types.ts ChartPoint). -/
structure ChartPoint where
  x : Expression
  y : Expression
  deriving Repr, DecidableEq

/-- A named chart series (types.ts ChartSeries). -/
structure ChartSeries where
  label : String
  points : List ChartPoint
  deriving Repr, DecidableEq

mutual
/-- SWAN statements (types.ts Statement), as actually constructed by the
current parser: a ButtonStmt's navigation target is optional, and a
TableRow carries an optional trailing action block (the parser constructs
it and the repository test reads it, although the types file omits the
field). The chartType is kept as its token text, constrained by the parser
to bar/line/pie/area/scatter. -/
inductive Statement
  | header (s : String)
  | text (s : String)
  | button (label : String) (nav : Option NavTarget)
  | link (label : String) (nav : NavTarget)
  | field (name : String)
  | input (name : String)
  | use (component : String)
  | submit (label : String) (action : String)
  | click (label : String) (action : String)
  | handler (action : String) (outcomes : List OutcomeClause)
  | cond (condition : Expression) (body : List Statement)
  | queryS (name : String) (valueType : Option QType) (defaultValue : Option LitV)
  | table (name : String) (columns : List String) (rows : List TableRow)
  | chart (name : String) (chartType : String) (series : List ChartSeries)

/-- A table row (cells plus the optional action block). -/
inductive TableRow
  | mk (cells : List Expression) (actions : Option (List Statement))
end

/-- App declaration (types.ts AppDecl). -/
structure AppDecl where
  name : String
  entry : String

/-- Page declaration (types.ts PageDecl). -/
structure PageDecl where
  name : String
  body : List Statement

/-- Component declaration (types.ts ComponentDecl). -/
structure ComponentDecl where
  name : String
  body : List Statement

/-- Program root (types.ts Program). -/
structure Program where
  app : AppDecl
  pages : List PageDecl
  components : List ComponentDecl

/-- The lexer's reserved-word table (lexer.ts KEYWORDS), verbatim. -/
def KEYWORDS : List String :=
  ["app", "page", "component", "entry", "use", "header", "text",
   "button", "link", "field", "input", "submit", "click", "on", "if",
   "query", "string", "number", "boolean", "true", "false",
   "password", "email", "date", "dropdown", "radio",
   "table", "columns", "row",
   "chart", "series", "point",
   "bar", "line", "pie", "area", "scatter"]

/-- Tokens after the skip filter (WS/NL/COMMENT removed).  A keyword token's
type and value are both the keyword itself in the source; here `kw w`
carries the word.  Operator/punctuation tokens carry no data. -/
inductive Token
  | kw (word : String)
  | identT (value : String)
  | strT (value : String)
  | numT (raw : String)
  | arrow | lbrace | rbrace | lbracket | rbracket | comma | dot
  | eqT | neqT | lteT | gteT | ltT | gtT | andT | orT | bangT
  | assignT | colonT | questionT | ampT | plusT
  deriving Repr, DecidableEq

/-- The lexer's classification of an identifier-shaped word (lexer.ts IDENT
rule with moo.keywords): the word becomes a keyword token exactly when it
appears in KEYWORDS, otherwise an IDENT token. -/
def lexWordToken (w : String) : Token :=
  if KEYWORDS.contains w then .kw w else .identT w

/-- The reserved-word list as enumerated by the specification (and claim C5):
app, page, component, entry, use, header, text, button, link, field, input,
submit, click, on, if, query, string, number, boolean, true, false, table,
columns, row, chart, series, point, bar, line, pie, area, scatter.
Stated from the spec's words, for comparison with the source's KEYWORDS. -/
def specC5Keywords : List String :=
  ["app", "page", "component", "entry", "use", "header", "text",
   "button", "link", "field", "input", "submit", "click", "on", "if",
   "query", "string", "number", "boolean", "true", "false",
   "table", "columns", "row",
   "chart", "series", "point",
   "bar", "line", "pie", "area", "scatter"]

/-- Keywords the parser accepts in identifier position (parser.ts
expectIdent allow-list), verbatim from the current parser. -/
def IDENT_KEYWORDS : List String :=
  ["app", "page", "component", "entry", "use", "header", "text",
   "button", "link", "field", "input", "submit", "click", "on", "if",
   "query", "string", "number", "boolean",
   "true", "false",
   "table", "columns", "row",
   "chart", "series", "point",
   "bar", "line", "pie", "area", "scatter"]

/-- Parse-side errors: a thrown ParseError, or fuel exhaustion of the
embedding (the source relies on unbounded recursion). -/
inductive PErr
  | parseError
  | fuelOut
  deriving Repr, DecidableEq

/-- Result of one parsing function: a value plus the remaining tokens. -/
abbrev PRes (α : Type) := Except PErr (α × List Token)

/-- The parser's expectIdent helper (current revision): accepts an IDENT
token, or any keyword in the IDENT_KEYWORDS allow-list, and yields its
text value. -/
def expectIdentF : List Token → PRes String
  | .identT v :: rest => .ok (v, rest)
  | .kw k :: rest => if IDENT_KEYWORDS.contains k then .ok (k, rest) else .error .parseError
  | _ => .error .parseError

/-- The parser's expectString helper. -/
def expectStringF : List Token → PRes String
  | .strT v :: rest => .ok (v, rest)
  | _ => .error .parseError

/-- The COMPARISON_OPS table of the parser: which token is a comparison
operator, and the BinaryOperator it maps to. -/
def compOpOf : Token → Option BinOp
  | .eqT => some .eq
  | .neqT => some .neq
  | .ltT => some .lt
  | .gtT => some .gt
  | .lteT => some .lte
  | .gteT => some .gte
  | _ => none

/-- parsePrimary: boolean, string and number literals, and identifier or
identifier.member (an IDENT token or the `query` keyword). -/
def parsePrimaryF : List Token → PRes Expression
  | .kw "true" :: rest => .ok (.boolE true, rest)
  | .kw "false" :: rest => .ok (.boolE false, rest)
  | .strT s :: rest => .ok (.strE s, rest)
  | .numT s :: rest => .ok (.numE s, rest)
  | .identT n :: .dot :: rest =>
      match expectIdentF rest with
      | .ok (m, rest') => .ok (.memberE n m, rest')
      | .error e => .error e
  | .identT n :: rest => .ok (.identE n, rest)
  | .kw "query" :: .dot :: rest =>
      match expectIdentF rest with
      | .ok (m, rest') => .ok (.memberE "query" m, rest')
      | .error e => .error e
  | .kw "query" :: rest => .ok (.identE "query", rest)
  | _ => .error .parseError

/-- parseUnary: an optional leading `!` over a primary. -/
def parseUnaryF : List Token → PRes Expression
  | .bangT :: rest =>
      match parsePrimaryF rest with
      | .ok (e, rest') => .ok (.notE e, rest')
      | .error e => .error e
  | toks => parsePrimaryF toks

mutual
/-- parseAdditive: a left-associative chain of `+` over unaries. -/
def parseAddF : Nat → List Token → PRes Expression
  | 0, _ => .error .fuelOut
  | f + 1, toks =>
      match parseUnaryF toks with
      | .ok (l, rest) => addLoopF f l rest
      | .error e => .error e

/-- The while-loop of parseAdditive. -/
def addLoopF : Nat → Expression → List Token → PRes Expression
  | 0, _, _ => .error .fuelOut
  | f + 1, left, toks =>
      match toks with
      | .plusT :: rest =>
          match parseUnaryF rest with
          | .ok (r, rest') => addLoopF f (.binE .plus left r) rest'
          | .error e => .error e
      | _ => .ok (left, toks)
end

/-- parseComparison: one optional, non-chaining comparison between
additive operands. -/
def parseCompF : Nat → List Token → PRes Expression
  | 0, _ => .error .fuelOut
  | f + 1, toks =>
      match parseAddF f toks with
      | .error e => .error e
      | .ok (l, rest) =>
          match rest with
          | t :: rest' =>
              match compOpOf t with
              | some op =>
                  match parseAddF f rest' with
                  | .ok (r, rest'') => .ok (.binE op l r, rest'')
                  | .error e => .error e
              | none => .ok (l, rest)
          | [] => .ok (l, [])

mutual
/-- parseAnd: a left-associative chain of `&&` over comparisons. -/
def parseAndF : Nat → List Token → PRes Expression
  | 0, _ => .error .fuelOut
  | f + 1, toks =>
      match parseCompF f toks with
      | .ok (l, rest) => andLoopF f l rest
      | .error e => .error e

/-- The while-loop of parseAnd. -/
def andLoopF : Nat → Expression → List Token → PRes Expression
  | 0, _, _ => .error .fuelOut
  | f + 1, left, toks =>
      match toks with
      | .andT :: rest =>
          match parseCompF f rest with
          | .ok (r, rest') => andLoopF f (.binE .andOp left r) rest'
          | .error e => .error e
      | _ => .ok (left, toks)
end

mutual
/-- parseOr: a left-associative chain of `||` over and-chains. -/
def parseOrF : Nat → List Token → PRes Expression
  | 0, _ => .error .fuelOut
  | f + 1, toks =>
      match parseAndF f toks with
      | .ok (l, rest) => orLoopF f l rest
      | .error e => .error e

/-- The while-loop of parseOr. -/
def orLoopF : Nat → Expression → List Token → PRes Expression
  | 0, _, _ => .error .fuelOut
  | f + 1, left, toks =>
      match toks with
      | .orT :: rest =>
          match parseAndF f rest with
          | .ok (r, rest') => orLoopF f (.binE .orOp left r) rest'
          | .error e => .error e
      | _ => .ok (left, toks)
end

/-- parseExpression: the entry point of the precedence cascade. -/
def parseExpressionF (f : Nat) (toks : List Token) : PRes Expression :=
  parseOrF f toks

/-- parseQueryArg: identifier, `=`, expression. -/
def parseQueryArgF (f : Nat) (toks : List Token) : PRes QueryArg :=
  match expectIdentF toks with
  | .ok (k, r1) =>
      match r1 with
      | .assignT :: r2 =>
          match parseExpressionF f r2 with
          | .ok (v, r3) => .ok ({ key := k, value := v }, r3)
          | .error e => .error e
      | _ => .error .parseError
  | .error e => .error e

/-- The `&`-separated continuation of a navigation query string. -/
def queryArgsLoopF : Nat → List QueryArg → List Token → PRes (List QueryArg)
  | 0, _, _ => .error .fuelOut
  | f + 1, acc, .ampT :: rest =>
      match parseQueryArgF f rest with
      | .ok (a, r) => queryArgsLoopF f (acc ++ [a]) r
      | .error e => .error e
  | _ + 1, acc, toks => .ok (acc, toks)

/-- parseNavTarget: `->` identifier, then an optional `?arg&arg...` query
string (current parser revision). -/
def parseNavTargetF (f : Nat) : List Token → PRes NavTarget
  | .arrow :: rest =>
      match expectIdentF rest with
      | .ok (t, r1) =>
          match r1 with
          | .questionT :: r2 =>
              match parseQueryArgF f r2 with
              | .ok (a, r3) =>
                  match queryArgsLoopF f [a] r3 with
                  | .ok (args, r4) => .ok ({ target := t, queryArgs := args }, r4)
                  | .error e => .error e
              | .error e => .error e
          | _ => .ok ({ target := t, queryArgs := [] }, r1)
      | .error e => .error e
  | _ => .error .parseError

/-- parseHeaderStmt. -/
def parseHeaderStmtF : List Token → PRes Statement
  | .kw "header" :: rest =>
      match expectStringF rest with
      | .ok (s, r) => .ok (.header s, r)
      | .error e => .error e
  | _ => .error .parseError

/-- parseTextStmt. -/
def parseTextStmtF : List Token → PRes Statement
  | .kw "text" :: rest =>
      match expectStringF rest with
      | .ok (s, r) => .ok (.text s, r)
      | .error e => .error e
  | _ => .error .parseError

/-- parseButtonStmt (current revision): the navigation target is parsed
only when an `->` follows the label. -/
def parseButtonStmtF (f : Nat) : List Token → PRes Statement
  | .kw "button" :: rest =>
      match expectStringF rest with
      | .ok (label, r1) =>
          match r1 with
          | .arrow :: _ =>
              match parseNavTargetF f r1 with
              | .ok (nav, r2) => .ok (.button label (some nav), r2)
              | .error e => .error e
          | _ => .ok (.button label none, r1)
      | .error e => .error e
  | _ => .error .parseError

/-- parseLinkStmt: the navigation target is mandatory. -/
def parseLinkStmtF (f : Nat) : List Token → PRes Statement
  | .kw "link" :: rest =>
      match expectStringF rest with
      | .ok (label, r1) =>
          match parseNavTargetF f r1 with
          | .ok (nav, r2) => .ok (.link label nav, r2)
          | .error e => .error e
      | .error e => .error e
  | _ => .error .parseError

/-- parseFieldStmt. -/
def parseFieldStmtF : List Token → PRes Statement
  | .kw "field" :: rest =>
      match expectIdentF rest with
      | .ok (n, r) => .ok (.field n, r)
      | .error e => .error e
  | _ => .error .parseError

/-- parseInputStmt. -/
def parseInputStmtF : List Token → PRes Statement
  | .kw "input" :: rest =>
      match expectIdentF rest with
      | .ok (n, r) => .ok (.input n, r)
      | .error e => .error e
  | _ => .error .parseError

/-- parseUseStmt. -/
def parseUseStmtF : List Token → PRes Statement
  | .kw "use" :: rest =>
      match expectIdentF rest with
      | .ok (n, r) => .ok (.use n, r)
      | .error e => .error e
  | _ => .error .parseError

/-- parseSubmitStmt: label string, `->`, action identifier. -/
def parseSubmitStmtF : List Token → PRes Statement
  | .kw "submit" :: rest =>
      match expectStringF rest with
      | .ok (label, r1) =>
          match r1 with
          | .arrow :: r2 =>
              match expectIdentF r2 with
              | .ok (a, r3) => .ok (.submit label a, r3)
              | .error e => .error e
          | _ => .error .parseError
      | .error e => .error e
  | _ => .error .parseError

/-- parseClickStmt: label string, `->`, action identifier. -/
def parseClickStmtF : List Token → PRes Statement
  | .kw "click" :: rest =>
      match expectStringF rest with
      | .ok (label, r1) =>
          match r1 with
          | .arrow :: r2 =>
              match expectIdentF r2 with
              | .ok (a, r3) => .ok (.click label a, r3)
              | .error e => .error e
          | _ => .error .parseError
      | .error e => .error e
  | _ => .error .parseError

/-- parseOutcomeClause: identifier `->` identifier. -/
def parseOutcomeClauseF : List Token → PRes OutcomeClause
  | toks =>
      match expectIdentF toks with
      | .ok (o, r1) =>
          match r1 with
          | .arrow :: r2 =>
              match expectIdentF r2 with
              | .ok (t, r3) => .ok ({ outcome := o, target := t }, r3)
              | .error e => .error e
          | _ => .error .parseError
      | .error e => .error e

/-- The outcome-collecting loop of parseHandlerStmt (until `}` or end). -/
def outcomesLoopF : Nat → List OutcomeClause → List Token → PRes (List OutcomeClause)
  | 0, _, _ => .error .fuelOut
  | _ + 1, acc, [] => .ok (acc, [])
  | _ + 1, acc, .rbrace :: r => .ok (acc, .rbrace :: r)
  | f + 1, acc, toks =>
      match parseOutcomeClauseF toks with
      | .ok (o, r) => outcomesLoopF f (acc ++ [o]) r
      | .error e => .error e

/-- parseHandlerStmt: `on` action `{ outcomes }`. -/
def parseHandlerStmtF (f : Nat) : List Token → PRes Statement
  | .kw "on" :: rest =>
      match expectIdentF rest with
      | .ok (a, r1) =>
          match r1 with
          | .lbrace :: r2 =>
              match outcomesLoopF f [] r2 with
              | .ok (os, r3) =>
                  match r3 with
                  | .rbrace :: r4 => .ok (.handler a os, r4)
                  | _ => .error .parseError
              | .error e => .error e
          | _ => .error .parseError
      | .error e => .error e
  | _ => .error .parseError

/-- parseLiteral: a bare string, number or boolean literal. -/
def parseLiteralF : List Token → PRes LitV
  | .strT s :: r => .ok (.strL s, r)
  | .numT s :: r => .ok (.numL s, r)
  | .kw "true" :: r => .ok (.boolL true, r)
  | .kw "false" :: r => .ok (.boolL false, r)
  | _ => .error .parseError

/-- The optional `= literal` default of a query declaration. -/
def parseQueryDefaultF (n : String) (vt : Option QType) : List Token → PRes Statement
  | .assignT :: r =>
      match parseLiteralF r with
      | .ok (d, r') => .ok (.queryS n vt (some d), r')
      | .error e => .error e
  | toks => .ok (.queryS n vt none, toks)

/-- parseQueryStmt: `query` name, optional `: type`, optional `= literal`. -/
def parseQueryStmtF : List Token → PRes Statement
  | .kw "query" :: rest =>
      match expectIdentF rest with
      | .ok (n, r1) =>
          match r1 with
          | .colonT :: .kw "string" :: r2 => parseQueryDefaultF n (some .stringT) r2
          | .colonT :: .kw "number" :: r2 => parseQueryDefaultF n (some .numberT) r2
          | .colonT :: .kw "boolean" :: r2 => parseQueryDefaultF n (some .booleanT) r2
          | .colonT :: _ => .error .parseError
          | _ => parseQueryDefaultF n none r1
      | .error e => .error e
  | _ => .error .parseError

/-- parseChartPoint: `point` expression `,` expression. -/
def parseChartPointF (f : Nat) : List Token → PRes ChartPoint
  | .kw "point" :: rest =>
      match parseExpressionF f rest with
      | .ok (x, r1) =>
          match r1 with
          | .comma :: r2 =>
              match parseExpressionF f r2 with
              | .ok (y, r3) => .ok ({ x := x, y := y }, r3)
              | .error e => .error e
          | _ => .error .parseError
      | .error e => .error e
  | _ => .error .parseError

/-- The point-collecting loop of a series block. -/
def pointsLoopF : Nat → List ChartPoint → List Token → PRes (List ChartPoint)
  | 0, _, _ => .error .fuelOut
  | f + 1, acc, .kw "point" :: rest =>
      match parseChartPointF f (.kw "point" :: rest) with
      | .ok (p, r) => pointsLoopF f (acc ++ [p]) r
      | .error e => .error e
  | _ + 1, acc, toks => .ok (acc, toks)

/-- parseSeriesDecl: `series` label `{ points }`. -/
def parseSeriesDeclF (f : Nat) : List Token → PRes ChartSeries
  | .kw "series" :: rest =>
      match expectStringF rest with
      | .ok (label, r1) =>
          match r1 with
          | .lbrace :: r2 =>
              match pointsLoopF f [] r2 with
              | .ok (ps, r3) =>
                  match r3 with
                  | .rbrace :: r4 => .ok ({ label := label, points := ps }, r4)
                  | _ => .error .parseError
              | .error e => .error e
          | _ => .error .parseError
      | .error e => .error e
  | _ => .error .parseError

/-- The series-collecting loop of a chart block. -/
def seriesLoopF : Nat → List ChartSeries → List Token → PRes (List ChartSeries)
  | 0, _, _ => .error .fuelOut
  | f + 1, acc, .kw "series" :: rest =>
      match parseSeriesDeclF f (.kw "series" :: rest) with
      | .ok (s, r) => seriesLoopF f (acc ++ [s]) r
      | .error e => .error e
  | _ + 1, acc, toks => .ok (acc, toks)

/-- The parser's CHART_TYPES set. -/
def CHART_TYPES : List String := ["bar", "line", "pie", "area", "scatter"]

/-- parseChartStmt: `chart` name charttype `{ series* }`. -/
def parseChartStmtF (f : Nat) : List Token → PRes Statement
  | .kw "chart" :: rest =>
      match expectIdentF rest with
      | .ok (n, r1) =>
          match r1 with
          | .kw ct :: r2 =>
              if CHART_TYPES.contains ct then
                match r2 with
                | .lbrace :: r3 =>
                    match seriesLoopF f [] r3 with
                    | .ok (ss, r4) =>
                        match r4 with
                        | .rbrace :: r5 => .ok (.chart n ct ss, r5)
                        | _ => .error .parseError
                    | .error e => .error e
                | _ => .error .parseError
              else .error .parseError
          | _ => .error .parseError
      | .error e => .error e
  | _ => .error .parseError

/-- The comma-separated continuation of a `columns [...]` list, with the
source's trailing-comma allowance: a comma directly followed by `]` ends
the loop without consuming the `]`. -/
def columnsLoopF : Nat → List String → List Token → PRes (List String)
  | 0, _, _ => .error .fuelOut
  | _ + 1, acc, .comma :: .rbracket :: r => .ok (acc, .rbracket :: r)
  | f + 1, acc, .comma :: rest =>
      match expectStringF rest with
      | .ok (s, r) => columnsLoopF f (acc ++ [s]) r
      | .error e => .error e
  | _ + 1, acc, toks => .ok (acc, toks)

/-- The bracketed column-label list of parseTableStmt. -/
def parseColumnsF (f : Nat) : List Token → PRes (List String)
  | .lbracket :: .rbracket :: r => .ok ([], r)
  | .lbracket :: rest =>
      match expectStringF rest with
      | .ok (s, r1) =>
          match columnsLoopF f [s] r1 with
          | .ok (cols, r2) =>
              match r2 with
              | .rbracket :: r3 => .ok (cols, r3)
              | _ => .error .parseError
          | .error e => .error e
      | .error e => .error e
  | _ => .error .parseError

/-- The comma-separated continuation of a row's cell list, with the same
trailing-comma allowance as the columns list. -/
def cellsLoopF : Nat → List Expression → List Token → PRes (List Expression)
  | 0, _, _ => .error .fuelOut
  | _ + 1, acc, .comma :: .rbracket :: r => .ok (acc, .rbracket :: r)
  | f + 1, acc, .comma :: rest =>
      match parseExpressionF f rest with
      | .ok (e, r) => cellsLoopF f (acc ++ [e]) r
      | .error e => .error e
  | _ + 1, acc, toks => .ok (acc, toks)

/-- The bracketed cell list of parseTableRow. -/
def parseCellsF (f : Nat) : List Token → PRes (List Expression)
  | .lbracket :: .rbracket :: r => .ok ([], r)
  | .lbracket :: rest =>
      match parseExpressionF f rest with
      | .ok (e, r1) =>
          match cellsLoopF f [e] r1 with
          | .ok (cells, r2) =>
              match r2 with
              | .rbracket :: r3 => .ok (cells, r3)
              | _ => .error .parseError
          | .error e => .error e
      | .error e => .error e
  | _ => .error .parseError

mutual
/-- parseStatement: dispatch on the leading token's type. -/
def parseStatementF : Nat → List Token → PRes Statement
  | 0, _ => .error .fuelOut
  | f + 1, toks =>
      match toks with
      | .kw "header" :: _ => parseHeaderStmtF toks
      | .kw "text" :: _ => parseTextStmtF toks
      | .kw "button" :: _ => parseButtonStmtF f toks
      | .kw "link" :: _ => parseLinkStmtF f toks
      | .kw "field" :: _ => parseFieldStmtF toks
      | .kw "input" :: _ => parseInputStmtF toks
      | .kw "use" :: _ => parseUseStmtF toks
      | .kw "submit" :: _ => parseSubmitStmtF toks
      | .kw "click" :: _ => parseClickStmtF toks
      | .kw "on" :: _ => parseHandlerStmtF f toks
      | .kw "if" :: _ => parseConditionalStmtF f toks
      | .kw "query" :: _ => parseQueryStmtF toks
      | .kw "table" :: _ => parseTableStmtF f toks
      | .kw "chart" :: _ => parseChartStmtF f toks
      | _ => .error .parseError

/-- parseConditionalStmt: `if` expression block. -/
def parseConditionalStmtF : Nat → List Token → PRes Statement
  | 0, _ => .error .fuelOut
  | f + 1, .kw "if" :: rest =>
      match parseExpressionF f rest with
      | .ok (c, r1) =>
          match parseBlockF f r1 with
          | .ok (body, r2) => .ok (.cond c body, r2)
          | .error e => .error e
      | .error e => .error e
  | _ + 1, _ => .error .parseError

/-- parseBlock: `{ statements }`. -/
def parseBlockF : Nat → List Token → PRes (List Statement)
  | 0, _ => .error .fuelOut
  | f + 1, .lbrace :: rest =>
      match stmtsLoopF f [] rest with
      | .ok (stmts, r1) =>
          match r1 with
          | .rbrace :: r2 => .ok (stmts, r2)
          | _ => .error .parseError
      | .error e => .error e
  | _ + 1, _ => .error .parseError

/-- The statement-collecting loop of parseBlock (until `}` or end). -/
def stmtsLoopF : Nat → List Statement → List Token → PRes (List Statement)
  | 0, _, _ => .error .fuelOut
  | _ + 1, acc, [] => .ok (acc, [])
  | _ + 1, acc, .rbrace :: r => .ok (acc, .rbrace :: r)
  | f + 1, acc, toks =>
      match parseStatementF f toks with
      | .ok (s, r) => stmtsLoopF f (acc ++ [s]) r
      | .error e => .error e

/-- parseTableStmt: `table` name `{ columns [...] row* }`. -/
def parseTableStmtF : Nat → List Token → PRes Statement
  | 0, _ => .error .fuelOut
  | f + 1, .kw "table" :: rest =>
      match expectIdentF rest with
      | .ok (n, r1) =>
          match r1 with
          | .lbrace :: .kw "columns" :: r2 =>
              match parseColumnsF f r2 with
              | .ok (cols, r3) =>
                  match rowsLoopF f [] r3 with
                  | .ok (rows, r4) =>
                      match r4 with
                      | .rbrace :: r5 => .ok (.table n cols rows, r5)
                      | _ => .error .parseError
                  | .error e => .error e
              | .error e => .error e
          | _ => .error .parseError
      | .error e => .error e
  | _ + 1, _ => .error .parseError

/-- The row-collecting loop of parseTableStmt. -/
def rowsLoopF : Nat → List TableRow → List Token → PRes (List TableRow)
  | 0, _, _ => .error .fuelOut
  | f + 1, acc, .kw "row" :: rest =>
      match parseTableRowF f (.kw "row" :: rest) with
      | .ok (row, r) => rowsLoopF f (acc ++ [row]) r
      | .error e => .error e
  | _ + 1, acc, toks => .ok (acc, toks)

/-- parseTableRow: `row [cells]`, then an optional action block when a `{`
follows. -/
def parseTableRowF : Nat → List Token → PRes TableRow
  | 0, _ => .error .fuelOut
  | f + 1, .kw "row" :: rest =>
      match parseCellsF f rest with
      | .ok (cells, r1) =>
          match r1 with
          | .lbrace :: _ =>
              match parseBlockF f r1 with
              | .ok (acts, r2) => .ok (.mk cells (some acts), r2)
              | .error e => .error e
          | _ => .ok (.mk cells none, r1)
      | .error e => .error e
  | _ + 1, _ => .error .parseError
end

/-- parseAppDecl: `app` name `{ entry` page `}`. -/
def parseAppDeclF : List Token → PRes AppDecl
  | .kw "app" :: rest =>
      match expectIdentF rest with
      | .ok (n, r1) =>
          match r1 with
          | .lbrace :: .kw "entry" :: r2 =>
              match expectIdentF r2 with
              | .ok (en, r3) =>
                  match r3 with
                  | .rbrace :: r4 => .ok ({ name := n, entry := en }, r4)
                  | _ => .error .parseError
              | .error e => .error e
          | _ => .error .parseError
      | .error e => .error e
  | _ => .error .parseError

/-- parsePageDecl: `page` name block. -/
def parsePageDeclF (f : Nat) : List Token → PRes PageDecl
  | .kw "page" :: rest =>
      match expectIdentF rest with
      | .ok (n, r1) =>
          match parseBlockF f r1 with
          | .ok (b, r2) => .ok ({ name := n, body := b }, r2)
          | .error e => .error e
      | .error e => .error e
  | _ => .error .parseError

/-- parseComponentDecl: `component` name block. -/
def parseComponentDeclF (f : Nat) : List Token → PRes ComponentDecl
  | .kw "component" :: rest =>
      match expectIdentF rest with
      | .ok (n, r1) =>
          match parseBlockF f r1 with
          | .ok (b, r2) => .ok ({ name := n, body := b }, r2)
          | .error e => .error e
      | .error e => .error e
  | _ => .error .parseError

/-- The page/component loop of parseProgram, running to the end of the
token stream; any other leading token is a ParseError. -/
def topLoopF : Nat → List PageDecl → List ComponentDecl → List Token →
    Except PErr (List PageDecl × List ComponentDecl)
  | 0, _, _, _ => .error .fuelOut
  | _ + 1, ps, cs, [] => .ok (ps, cs)
  | f + 1, ps, cs, .kw "page" :: rest =>
      match parsePageDeclF f (.kw "page" :: rest) with
      | .ok (p, r) => topLoopF f (ps ++ [p]) cs r
      | .error e => .error e
  | f + 1, ps, cs, .kw "component" :: rest =>
      match parseComponentDeclF f (.kw "component" :: rest) with
      | .ok (c, r) => topLoopF f ps (cs ++ [c]) r
      | .error e => .error e
  | _ + 1, _, _, _ => .error .parseError

/-- parseProgram (and the module-level parse convenience): app declaration
first, then pages and components until the stream ends. -/
def parseProgramF (f : Nat) (toks : List Token) : Except PErr Program :=
  match parseAppDeclF toks with
  | .ok (app, r1) =>
      match topLoopF f [] [] r1 with
      | .ok (ps, cs) => .ok { app := app, pages := ps, components := cs }
      | .error e => .error e
  | .error e => .error e

/-- Component names collected by the checker from a statement list,
recursing through conditionals (semantic.ts collectUsedComponents).
Statements other than UseStmt and ConditionalStmt — in particular
TableStmt and ChartStmt — contribute nothing. -/
def collectUsedComponents : List Statement → List String
  | [] => []
  | .use c :: rest => c :: collectUsedComponents rest
  | .cond _ body :: rest => collectUsedComponents body ++ collectUsedComponents rest
  | _ :: rest => collectUsedComponents rest

/-- Semantic rule codes the checker raises (semantic.ts enforces SR-1
through SR-9 only). -/
inductive SRCode
  | sr1 | sr2 | sr3 | sr4 | sr5 | sr6 | sr7 | sr8 | sr9
  deriving Repr, DecidableEq

/-- Checker-side outcomes: a thrown SemanticError identified by its rule
code; a JavaScript TypeError (an unguarded crash, e.g. reading a property
of undefined); or fuel exhaustion of the embedding's graph traversals. -/
inductive CheckErr
  | semanticE (code : SRCode)
  | typeErrorE
  | fuelOutE
  deriving Repr, DecidableEq

/-- Run a fail-fast check over each element of a list (the checker's
for-loops that throw on the first violation). -/
def eachCheck {α : Type} (f : α → Except CheckErr Unit) : List α → Except CheckErr Unit
  | [] => .ok ()
  | x :: rest =>
      match f x with
      | .ok _ => eachCheck f rest
      | .error e => .error e

/-- The page-name set of the checker (`new Set(program.pages.map(p => p.name))`);
kept as a list, with membership as the observable operation. -/
def pageNamesOf (prog : Program) : List String :=
  prog.pages.map PageDecl.name

/-- The component-name set of the checker. -/
def componentNamesOf (prog : Program) : List String :=
  prog.components.map ComponentDecl.name

/-- The source's SR-1 guard `!app.entry || app.entry.trim() === ""` holds
exactly when the entry string is empty or all whitespace. -/
def isBlank (s : String) : Bool :=
  s.data.all (fun c => c.isWhitespace)

/-- SR-1 and SR-2 (checkSR1andSR2): the entry must be a non-blank name
(SR-1) naming a declared page (SR-2). -/
def checkSR1andSR2 (prog : Program) : Except CheckErr Unit :=
  if isBlank prog.app.entry then .error (.semanticE .sr1)
  else if (pageNamesOf prog).contains prog.app.entry then .ok ()
  else .error (.semanticE .sr2)

/-- The duplicate-name scan of checkSR6Names: walk the names in order with
a seen-set, raising SR-6 at the first repeat. -/
def dupScan (seen : List String) : List String → Except CheckErr Unit
  | [] => .ok ()
  | n :: rest =>
      if seen.contains n then .error (.semanticE .sr6)
      else dupScan (n :: seen) rest

/-- One Map.set-with-increment step of collectActions: the entry of an
existing key (unique, as on a Map) is updated in place, a new key is
appended at the end. -/
def bumpCount : List (String × Nat) → String → Nat → List (String × Nat)
  | [], k, v => [(k, v)]
  | p :: rest, k, v =>
      if p.1 = k then (p.1, p.2 + v) :: rest
      else p :: bumpCount rest k v

/-- Merging a nested conditional's action-count map entry by entry, as the
source's for-of over the inner map does. -/
def mergeCounts (acc : List (String × Nat)) (m : List (String × Nat)) : List (String × Nat) :=
  m.foldl (fun a p => bumpCount a p.1 p.2) acc

/-- collectActions: occurrence counts of submit/click action names, summed
across the statement list and all nested conditional bodies.  The source's
Map is modelled as an insertion-ordered association list. -/
def collectActsAux (acc : List (String × Nat)) : List Statement → List (String × Nat)
  | [] => acc
  | .submit _ a :: rest => collectActsAux (bumpCount acc a 1) rest
  | .click _ a :: rest => collectActsAux (bumpCount acc a 1) rest
  | .cond _ body :: rest => collectActsAux (mergeCounts acc (collectActsAux [] body)) rest
  | _ :: rest => collectActsAux acc rest

/-- collectActions, starting from the fresh map. -/
def collectActions (stmts : List Statement) : List (String × Nat) :=
  collectActsAux [] stmts

/-- checkActionUniqueness: SR-6 on the first action whose count exceeds
one.  (The scope name is used only in the error message and is elided.) -/
def checkActionUniqueness (stmts : List Statement) : Except CheckErr Unit :=
  match (collectActions stmts).find? (fun p => 1 < p.2) with
  | some _ => .error (.semanticE .sr6)
  | none => .ok ()

/-- checkSR6Names: page names unique, component names unique, then action
uniqueness per page and per component scope. -/
def checkSR6Names (prog : Program) : Except CheckErr Unit := do
  dupScan [] (prog.pages.map PageDecl.name)
  dupScan [] (prog.components.map ComponentDecl.name)
  eachCheck (fun p => checkActionUniqueness p.body) prog.pages
  eachCheck (fun c => checkActionUniqueness c.body) prog.components

/-- assertNoQueryInStatements: SR-7 on any QueryStmt in a component body,
recursing through conditionals. -/
def assertNoQuery : List Statement → Except CheckErr Unit
  | [] => .ok ()
  | .queryS _ _ _ :: _ => .error (.semanticE .sr7)
  | .cond _ body :: rest =>
      match assertNoQuery body with
      | .ok _ => assertNoQuery rest
      | .error e => .error e
  | _ :: rest => assertNoQuery rest

/-- checkSR7QueryInPagesOnly. -/
def checkSR7 (prog : Program) : Except CheckErr Unit :=
  eachCheck (fun c => assertNoQuery c.body) prog.components

/-- collectQueryKeys: walk a page body (recursing through conditionals),
raising SR-8 on a repeated query name and returning the collected names.
The source threads a `seen` set and a `paramSet` that receive identical
insertions; they are represented by the single list here. -/
def collectQueryKeys (seen : List String) : List Statement → Except CheckErr (List String)
  | [] => .ok seen
  | .queryS n _ _ :: rest =>
      if seen.contains n then .error (.semanticE .sr8)
      else collectQueryKeys (seen ++ [n]) rest
  | .cond _ body :: rest =>
      match collectQueryKeys seen body with
      | .ok seen' => collectQueryKeys seen' rest
      | .error e => .error e
  | _ :: rest => collectQueryKeys seen rest

/-- checkSR8UniqueQueryKeys, which also populates the checker's
pageQueryParams index (page name to declared query-parameter names) used
later by SR-9.  Pages are processed in declaration order. -/
def buildPageParams : List PageDecl → Except CheckErr (List (String × List String))
  | [] => .ok []
  | p :: rest =>
      match collectQueryKeys [] p.body with
      | .ok params =>
          match buildPageParams rest with
          | .ok m => .ok ((p.name, params) :: m)
          | .error e => .error e
      | .error e => .error e

/-- pageQueryParams.get: first matching entry (page names are unique by
the time this map is consulted, SR-6 having run first). -/
def lookupParams (m : List (String × List String)) (k : String) : Option (List String) :=
  (m.find? (fun p => p.1 = k)).map Prod.snd

/-- validateNavTarget: SR-3 if the target is not a declared page; then,
when query arguments are present, SR-9 on any key not declared by the
target page.  (The source loops and throws at the first bad key; only
whether some key is bad is observable here.) -/
def validateNavTarget (pageNames : List String) (params : List (String × List String))
    (nav : NavTarget) : Except CheckErr Unit :=
  if pageNames.contains nav.target then
    match nav.queryArgs with
    | [] => .ok ()
    | args =>
        match lookupParams params nav.target with
        | some tps =>
            if args.all (fun a => tps.contains a.key) then .ok ()
            else .error (.semanticE .sr9)
        | none => .error (.semanticE .sr9)
  else .error (.semanticE .sr3)

/-- checkHandlerNav: every outcome target must be a declared page (SR-3). -/
def checkOutcomes (pageNames : List String) : List OutcomeClause → Except CheckErr Unit
  | [] => .ok ()
  | o :: rest =>
      if pageNames.contains o.target then checkOutcomes pageNames rest
      else .error (.semanticE .sr3)

/-- checkNavInStatement(s): ButtonStmt and LinkStmt feed their nav to
validateNavTarget — for a ButtonStmt parsed without `->` the stored nav is
undefined and the unguarded `nav.target` read throws a TypeError.
HandlerStmt outcomes are checked, ConditionalStmt bodies are recursed
into, and every other statement kind — including TableStmt and ChartStmt —
falls through the default case unchecked. -/
def checkNavStmts (pageNames : List String) (params : List (String × List String)) :
    List Statement → Except CheckErr Unit
  | [] => .ok ()
  | .button _ none :: _ => .error .typeErrorE
  | .button _ (some nav) :: rest =>
      match validateNavTarget pageNames params nav with
      | .ok _ => checkNavStmts pageNames params rest
      | .error e => .error e
  | .link _ nav :: rest =>
      match validateNavTarget pageNames params nav with
      | .ok _ => checkNavStmts pageNames params rest
      | .error e => .error e
  | .handler _ os :: rest =>
      match checkOutcomes pageNames os with
      | .ok _ => checkNavStmts pageNames params rest
      | .error e => .error e
  | .cond _ body :: rest =>
      match checkNavStmts pageNames params body with
      | .ok _ => checkNavStmts pageNames params rest
      | .error e => .error e
  | _ :: rest => checkNavStmts pageNames params rest

/-- collectAndCheckNavTargets: page bodies first, then component bodies. -/
def checkNavAll (prog : Program) (params : List (String × List String)) :
    Except CheckErr Unit := do
  eachCheck (fun p => checkNavStmts (pageNamesOf prog) params p.body) prog.pages
  eachCheck (fun c => checkNavStmts (pageNamesOf prog) params c.body) prog.components

/-- One Map.set step for the uses map: the entry of an existing key
(unique, as on a Map) is replaced in place, a new key is appended. -/
def assocSet : List (String × List String) → String → List String →
    List (String × List String)
  | [], k, v => [(k, v)]
  | p :: rest, k, v => if p.1 = k then (k, v) :: rest else p :: assocSet rest k v

/-- The checker's usesMap: component name to the components it uses. -/
def buildUsesMap (comps : List ComponentDecl) : List (String × List String) :=
  comps.foldl (fun m c => assocSet m c.name (collectUsedComponents c.body)) []

/-- usesMap.get(name) ?? []. -/
def usesGet (m : List (String × List String)) (k : String) : List String :=
  ((m.find? (fun p => p.1 = k)).map Prod.snd).getD []

/-- Iteration order of a JavaScript Set built from a list: first-insertion
order with duplicates dropped. -/
def dedupFirst (seen : List String) : List String → List String
  | [] => []
  | n :: rest =>
      if seen.contains n then dedupFirst seen rest
      else n :: dedupFirst (seen ++ [n]) rest

mutual
/-- The dfs closure of checkSR5ComponentCycles: SR-5 when the current node
is on the in-progress stack; an already-visited (finished) node returns
without error; otherwise the node is marked visited and its dependencies
are traversed with the node pushed on the stack (the source pops the
stack afterwards, which the caller's unchanged `stk` models). -/
def dfsVisit (f : Nat) (E : String → List String) (n : String)
    (vis : List String) (stk : List String) : Except CheckErr (List String) :=
  match f with
  | 0 => .error .fuelOutE
  | f' + 1 =>
      if stk.contains n then .error (.semanticE .sr5)
      else if vis.contains n then .ok vis
      else dfsDeps f' E (E n) (n :: vis) (n :: stk)
termination_by (f, 0)

/-- The for-loop over a node's dependencies inside dfs. -/
def dfsDeps (f : Nat) (E : String → List String) (ds : List String)
    (vis : List String) (stk : List String) : Except CheckErr (List String) :=
  match ds with
  | [] => .ok vis
  | d :: ds' =>
      match dfsVisit f E d vis stk with
      | .ok vis' => dfsDeps f E ds' vis' stk
      | .error e => .error e
termination_by (f, ds.length + 1)
end

/-- The top-level loop of checkSR5ComponentCycles: dfs from every
component name, sharing the visited set. -/
def dfsAll (fuel : Nat) (E : String → List String) :
    List String → List String → Except CheckErr Unit
  | [], _ => .ok ()
  | n :: rest, vis =>
      match dfsVisit fuel E n vis [] with
      | .ok vis' => dfsAll fuel E rest vis'
      | .error e => .error e

/-- checkSR5ComponentCycles: build the uses map; SR-6 for any `use` of an
undefined component (components first, then pages); then cycle detection
by dfs from every component.  The fuel bound exceeds the maximal dfs
nesting depth (each nested level visits a fresh component). -/
def checkSR5 (prog : Program) : Except CheckErr Unit :=
  let compNames := componentNamesOf prog
  let m := buildUsesMap prog.components
  do
    eachCheck (fun c =>
      eachCheck (fun u =>
        if compNames.contains u then .ok () else .error (.semanticE .sr6))
        (usesGet m c.name)) prog.components
    eachCheck (fun p =>
      eachCheck (fun u =>
        if compNames.contains u then .ok () else .error (.semanticE .sr6))
        (collectUsedComponents p.body)) prog.pages
    dfsAll (prog.components.length + 2) (usesGet m) (dedupFirst [] compNames) []

/-- navTargetsOf inside checkSR4Reachability: collect navigation targets
from ButtonStmt/LinkStmt (the unguarded `stmt.nav.target` read again
crashes with a TypeError on a target-less button), HandlerStmt outcomes,
and nested conditionals; tables and charts are not traversed. -/
def navTargetsOf : List Statement → Except CheckErr (List String)
  | [] => .ok []
  | .button _ none :: _ => .error .typeErrorE
  | .button _ (some nav) :: rest =>
      match navTargetsOf rest with
      | .ok ts => .ok (nav.target :: ts)
      | .error e => .error e
  | .link _ nav :: rest =>
      match navTargetsOf rest with
      | .ok ts => .ok (nav.target :: ts)
      | .error e => .error e
  | .handler _ os :: rest =>
      match navTargetsOf rest with
      | .ok ts => .ok (os.map OutcomeClause.target ++ ts)
      | .error e => .error e
  | .cond _ body :: rest =>
      match navTargetsOf body with
      | .ok bs =>
          match navTargetsOf rest with
          | .ok ts => .ok (bs ++ ts)
          | .error e => .error e
      | .error e => .error e
  | _ :: rest => navTargetsOf rest

/-- compNavTargets of checkSR4Reachability: per-component nav targets,
built before the traversal starts. -/
def buildCompNavTargets : List ComponentDecl → Except CheckErr (List (String × List String))
  | [] => .ok []
  | c :: rest =>
      match navTargetsOf c.body with
      | .ok ts =>
          match buildCompNavTargets rest with
          | .ok m => .ok (assocSet m c.name ts)
          | .error e => .error e
      | .error e => .error e

/-- `new Map(pages.map(p => [p.name, p]))`: a later duplicate wins. -/
def pageLookupLast (pages : List PageDecl) (name : String) : Option PageDecl :=
  pages.foldl (fun acc p => if p.name = name then some p else acc) none

/-- The component names of top-level UseStmt statements of a body (the
reachability pass, unlike every other pass, does not recurse into
conditionals when collecting `use` statements). -/
def topLevelUses (body : List Statement) : List String :=
  body.filterMap (fun s => match s with | .use c => some c | _ => none)

/-- The BFS while-loop of checkSR4Reachability: pop from the front, skip
already-reached names, otherwise mark reached and enqueue the page's own
nav targets and those of components used at the top level of its body,
each filtered against the current reached set. -/
def bfsLoop (pages : List PageDecl) (compT : List (String × List String)) :
    Nat → List String → List String → Except CheckErr (List String)
  | 0, _, _ => .error .fuelOutE
  | _ + 1, [], reachable => .ok reachable
  | f + 1, name :: queue, reachable =>
      if reachable.contains name then bfsLoop pages compT f queue reachable
      else
        let reachable' := reachable ++ [name]
        match pageLookupLast pages name with
        | none => bfsLoop pages compT f queue reachable'
        | some page =>
            match navTargetsOf page.body with
            | .ok ts =>
                let pushes1 := ts.filter (fun t => ¬ reachable'.contains t)
                let pushes2 := ((topLevelUses page.body).flatMap
                  (fun c => usesGet compT c)).filter (fun t => ¬ reachable'.contains t)
                bfsLoop pages compT f (queue ++ pushes1 ++ pushes2) reachable'
            | .error e => .error e

/-- The number of nav targets a statement list can contribute to the BFS
queue (buttons and links one each, handlers one per outcome, conditionals
recursively). -/
def navCount : List Statement → Nat
  | [] => 0
  | .button _ _ :: rest => 1 + navCount rest
  | .link _ _ :: rest => 1 + navCount rest
  | .handler _ os :: rest => os.length + navCount rest
  | .cond _ body :: rest => navCount body + navCount rest
  | _ :: rest => navCount rest

/-- A fuel bound exceeding the total number of BFS enqueues: the initial
entry plus, for each page, its own targets and one full component-target
budget per top-level use statement. -/
def bfsFuel (prog : Program) : Nat :=
  2 + (prog.pages.map (fun p =>
    navCount p.body +
      (topLevelUses p.body).length *
        ((prog.components.map (fun c => navCount c.body)).sum))).sum

/-- checkSR4Reachability (strict mode only): BFS from the entry page, then
SR-4 for the first declared page missing from the reached set. -/
def checkSR4 (prog : Program) : Except CheckErr Unit := do
  let compT ← buildCompNavTargets prog.components
  let reach ← bfsLoop prog.pages compT (bfsFuel prog) [prog.app.entry] []
  eachCheck (fun p =>
    if reach.contains p.name then .ok () else .error (.semanticE .sr4)) prog.pages

/-- SemanticChecker.check: the rule passes in source order, with SR-4 only
in strict mode. -/
def checkSemantics (prog : Program) (strictMode : Bool) : Except CheckErr Unit := do
  checkSR1andSR2 prog
  checkSR6Names prog
  checkSR7 prog
  let params ← buildPageParams prog.pages
  checkNavAll prog params
  checkSR5 prog
  if strictMode then checkSR4 prog else .ok ()

/-- The public parse entry point (index.ts): parse the token stream, then
run the semantic checker on the resulting Program. -/
def parseAndCheckF (f : Nat) (toks : List Token) (strictMode : Bool) :
    Except (Sum PErr CheckErr) Program :=
  match parseProgramF f toks with
  | .ok prog =>
      match checkSemantics prog strictMode with
      | .ok _ => .ok prog
      | .error e => .error (.inr e)
  | .error e => .error (.inl e)

/-!
## Specification-side definitions

These state, in the claims' own terms, the properties the theorems relate
to the embedded code: the counting semantics of action uniqueness, the
precedence shape of parsed expressions, and the component-use cycle
relation.
-/

/-- The claim's counting semantics for action uniqueness: occurrences of
action name `a` among submit/click statements, summed across the list and
all recursively nested conditional bodies. -/
def specActionCount (a : String) : List Statement → Nat
  | [] => 0
  | .submit _ b :: rest => (if b = a then 1 else 0) + specActionCount a rest
  | .click _ b :: rest => (if b = a then 1 else 0) + specActionCount a rest
  | .cond _ body :: rest => specActionCount a body + specActionCount a rest
  | _ :: rest => specActionCount a rest

/-- Value stored for key `a` in an association-list map (0 when absent):
the first — on a Map, the only — entry with that key. -/
def countOf : List (String × Nat) → String → Nat
  | [], _ => 0
  | p :: rest, a => if p.1 = a then p.2 else countOf rest a

/-- Total of the values stored under key `a`, duplicates included. -/
def entrySum (a : String) : List (String × Nat) → Nat
  | [] => 0
  | p :: rest => (if p.1 = a then p.2 else 0) + entrySum a rest

/-- The keys of an association list are distinct (the defining invariant
of a JavaScript Map). -/
def keysNodup (m : List (String × Nat)) : Prop :=
  (m.map Prod.fst).Nodup

/-- The comparison operators (claim C9). -/
def isCompOp : BinOp → Bool
  | .eq => true
  | .neq => true
  | .lt => true
  | .gt => true
  | .lte => true
  | .gte => true
  | _ => false

/-- Primary level of the claimed precedence order: a literal, an
identifier, or a member access. -/
def isPrimaryLevel : Expression → Bool
  | .identE _ => true
  | .memberE _ _ => true
  | .strE _ => true
  | .numE _ => true
  | .boolE _ => true
  | _ => false

/-- Unary level: a primary, or `!` applied to a primary. -/
def isUnaryLevel : Expression → Bool
  | .notE p => isPrimaryLevel p
  | e => isPrimaryLevel e

/-- Additive level: a left-associative chain of `+` whose right operands
are unary level — so `+` binds tighter than everything below and groups
to the left. -/
def isAddLevel : Expression → Bool
  | .binE .plus l r => isAddLevel l && isUnaryLevel r
  | e => isUnaryLevel e

/-- Comparison level: an additive, or exactly one comparison operator over
two additive operands.  A comparison node never has a comparison child:
the claim's non-chaining property. -/
def isCompLevel : Expression → Bool
  | .binE op l r =>
      if isCompOp op then isAddLevel l && isAddLevel r
      else isAddLevel (.binE op l r)
  | e => isAddLevel e

/-- And level: a left-associative chain of `&&` over comparison-level
operands. -/
def isAndLevel : Expression → Bool
  | .binE .andOp l r => isAndLevel l && isCompLevel r
  | e => isCompLevel e

/-- Or level: a left-associative chain of `||` over and-level operands.
This predicate is the claim's whole precedence contract. -/
def isOrLevel : Expression → Bool
  | .binE .orOp l r => isOrLevel l && isAndLevel r
  | e => isAndLevel e

/-- Claim C7's component-use edge: `b` is among the components used —
recursively through nested conditionals — by the component declaration
named `a`. -/
def specUseEdge (prog : Program) (a b : String) : Prop :=
  ∃ c ∈ prog.components, c.name = a ∧ b ∈ collectUsedComponents c.body

/-- Claim C7's cycle property: some name reaches itself through one or
more component-use edges. -/
def specHasUseCycle (prog : Program) : Prop :=
  ∃ a, Relation.TransGen (specUseEdge prog) a a

/-- Every `use` in the program (in component bodies and page bodies,
collected recursively through conditionals) names a declared component —
the condition checkSR5's SR-6 pre-scan enforces before cycle detection
can run. -/
def allUsesDeclared (prog : Program) : Prop :=
  (∀ c ∈ prog.components, ∀ u ∈ collectUsedComponents c.body,
      u ∈ componentNamesOf prog) ∧
  (∀ p ∈ prog.pages, ∀ u ∈ collectUsedComponents p.body,
      u ∈ componentNamesOf prog)

/-- A finish-order list is topologically sorted for the edge function `E`:
every node's successors occur strictly later in the list. -/
inductive TopoOk (E : String → List String) : List String → Prop
  | nil : TopoOk E []
  | cons {u : String} {rest : List String} :
      (∀ w ∈ E u, w ∈ rest) → TopoOk E rest → TopoOk E (u :: rest)

mutual
/-- dfsVisit instrumented with a finish-order list `fin` (prepended to at
the moment a node's dependencies are done — where the source pops the
stack).  `fin` is write-only: it never influences control flow, and
erasing it yields dfsVisit exactly (theorem dfsVisit_eq_dfsVisitF). -/
def dfsVisitF (f : Nat) (E : String → List String) (n : String)
    (vis fin stk : List String) : Except CheckErr (List String × List String) :=
  match f with
  | 0 => .error .fuelOutE
  | f' + 1 =>
      if stk.contains n then .error (.semanticE .sr5)
      else if vis.contains n then .ok (vis, fin)
      else
        match dfsDepsF f' E (E n) (n :: vis) fin (n :: stk) with
        | .ok (vis', fin') => .ok (vis', n :: fin')
        | .error e => .error e
termination_by (f, 0)

/-- The instrumented dependency loop. -/
def dfsDepsF (f : Nat) (E : String → List String) (ds : List String)
    (vis fin stk : List String) : Except CheckErr (List String × List String) :=
  match ds with
  | [] => .ok (vis, fin)
  | d :: ds' =>
      match dfsVisitF f E d vis fin stk with
      | .ok (vis', fin') => dfsDepsF f E ds' vis' fin' stk
      | .error e => .error e
termination_by (f, ds.length + 1)
end

/-- The instrumented top-level dfs loop. -/
def dfsAllF (fuel : Nat) (E : String → List String) :
    List String → List String → List String →
    Except CheckErr (List String × List String)
  | [], vis, fin => .ok (vis, fin)
  | n :: rest, vis, fin =>
      match dfsVisitF fuel E n vis fin [] with
      | .ok (vis', fin') => dfsAllF fuel E rest vis' fin'
      | .error e => .error e

/-- The invariant carried through the instrumented dfs: the visited set is
exactly finished-or-on-stack, the finish list is a topological order with
distinct entries, and nothing finished is still on the stack. -/
def DfsInv (E : String → List String) (vis fin stk : List String) : Prop :=
  (∀ x, x ∈ vis ↔ (x ∈ fin ∨ x ∈ stk)) ∧ TopoOk E fin ∧ fin.Nodup ∧
    (∀ x ∈ fin, x ∉ stk)

/-- Position of the first occurrence of a name in a list (length when
absent) — used to read a strict ordering off a topological finish list. -/
def idxIn : List String → String → Nat
  | [], _ => 0
  | x :: xs, a => if x = a then 0 else idxIn xs a + 1

set_option maxRecDepth 10000

unseal navCount collectUsedComponents collectActsAux assertNoQuery collectQueryKeys checkNavStmts navTargetsOf specActionCount

/-!
## Concrete programs used to settle the claims

Each program is given as the token stream the lexer would deliver for the
source text quoted in the results, plus the Program the parser builds
from it.
-/

/-- Tokens of `app A { entry Home } page Home { button "Help" }`: an
otherwise-valid program whose only button has a label but no `->`. -/
def c1Toks : List Token :=
  [.kw "app", .identT "A", .lbrace, .kw "entry", .identT "Home", .rbrace,
   .kw "page", .identT "Home", .lbrace, .kw "button", .strT "Help", .rbrace]

/-- The AST of the c1 program: the ButtonStmt carries no navigation
target. -/
def c1Prog : Program :=
  { app := { name := "A", entry := "Home" },
    pages := [{ name := "Home", body := [.button "Help" none] }],
    components := [] }

/-- Tokens of a pie chart with two series, each with one point, inside an
otherwise-valid page. -/
def c2Toks : List Token :=
  [.kw "app", .identT "A", .lbrace, .kw "entry", .identT "Home", .rbrace,
   .kw "page", .identT "Home", .lbrace,
     .kw "chart", .identT "C", .kw "pie", .lbrace,
       .kw "series", .strT "s1", .lbrace,
         .kw "point", .numT "1", .comma, .numT "2", .rbrace,
       .kw "series", .strT "s2", .lbrace,
         .kw "point", .numT "1", .comma, .numT "2", .rbrace,
     .rbrace,
   .rbrace]

/-- The AST of the c2 program: a pie chart with two series. -/
def c2Prog : Program :=
  { app := { name := "A", entry := "Home" },
    pages := [{ name := "Home", body :=
      [.chart "C" "pie"
        [{ label := "s1", points := [{ x := .numE "1", y := .numE "2" }] },
         { label := "s2", points := [{ x := .numE "1", y := .numE "2" }] }]] }],
    components := [] }

/-- Tokens of the spec's scenario 6: a table declaring two columns whose
single row has one cell. -/
def c3Toks : List Token :=
  [.kw "app", .identT "A", .lbrace, .kw "entry", .identT "Home", .rbrace,
   .kw "page", .identT "Home", .lbrace,
     .kw "table", .identT "T", .lbrace,
       .kw "columns", .lbracket, .strT "A", .comma, .strT "B", .rbracket,
       .kw "row", .lbracket, .strT "x", .rbracket,
     .rbrace,
   .rbrace]

/-- The AST of the c3 program: two columns, one one-cell row. -/
def c3Prog : Program :=
  { app := { name := "A", entry := "Home" },
    pages := [{ name := "Home", body :=
      [.table "T" ["A", "B"] [.mk [.strE "x"] none]] }],
    components := [] }

/-- Tokens of a program whose table row's action block navigates to the
undeclared page `Nowhere`. -/
def c4Toks : List Token :=
  [.kw "app", .identT "A", .lbrace, .kw "entry", .identT "Home", .rbrace,
   .kw "page", .identT "Home", .lbrace,
     .kw "table", .identT "T", .lbrace,
       .kw "columns", .lbracket, .strT "A", .rbracket,
       .kw "row", .lbracket, .strT "x", .rbracket, .lbrace,
         .kw "button", .strT "Go", .arrow, .identT "Nowhere",
       .rbrace,
     .rbrace,
   .rbrace]

/-- The AST of the c4 program: the row action block's button targets
`Nowhere`, which no page declares. -/
def c4Prog : Program :=
  { app := { name := "A", entry := "Home" },
    pages := [{ name := "Home", body :=
      [.table "T" ["A"]
        [.mk [.strE "x"]
          (some [.button "Go" (some { target := "Nowhere", queryArgs := [] })])]] }],
    components := [] }

/-- Tokens of a two-page program in which page `Detail` is targeted only
from a button inside a table row's action block on the entry page. -/
def c6Toks : List Token :=
  [.kw "app", .identT "A", .lbrace, .kw "entry", .identT "Home", .rbrace,
   .kw "page", .identT "Home", .lbrace,
     .kw "table", .identT "T", .lbrace,
       .kw "columns", .lbracket, .strT "A", .rbracket,
       .kw "row", .lbracket, .strT "x", .rbracket, .lbrace,
         .kw "button", .strT "Go", .arrow, .identT "Detail",
       .rbrace,
     .rbrace,
   .rbrace,
   .kw "page", .identT "Detail", .lbrace,
     .kw "link", .strT "Back", .arrow, .identT "Home", .rbrace]

/-- The AST of the c6 program. -/
def c6Prog : Program :=
  { app := { name := "A", entry := "Home" },
    pages :=
      [{ name := "Home", body :=
          [.table "T" ["A"]
            [.mk [.strE "x"]
              (some [.button "Go" (some { target := "Detail", queryArgs := [] })])]] },
       { name := "Detail", body :=
          [.link "Back" { target := "Home", queryArgs := [] }] }],
    components := [] }

/-- Tokens of `table T { columns ["A","B",] row [1,2,] }` — trailing
commas in both bracketed lists. -/
def c10TrailToks : List Token :=
  [.kw "table", .identT "T", .lbrace,
   .kw "columns", .lbracket, .strT "A", .comma, .strT "B", .comma, .rbracket,
   .kw "row", .lbracket, .numT "1", .comma, .numT "2", .comma, .rbracket,
   .rbrace]

/-- The same table source with the trailing commas removed. -/
def c10PlainToks : List Token :=
  [.kw "table", .identT "T", .lbrace,
   .kw "columns", .lbracket, .strT "A", .comma, .strT "B", .rbracket,
   .kw "row", .lbracket, .numT "1", .comma, .numT "2", .rbracket,
   .rbrace]

/-- A two-component cycle used to witness the SR-5 characterisation:
`CompA` uses `CompB` and `CompB` uses `CompA` (the page keeps the
program otherwise valid). -/
def c7Prog : Program :=
  { app := { name := "A", entry := "Home" },
    pages := [{ name := "Home", body := [.use "CompA"] }],
    components :=
      [{ name := "CompA", body := [.use "CompB"] },
       { name := "CompB", body := [.use "CompA"] }] }

/-- C1: the claim says a label-only `button` (no `->`) is valid anywhere
and that the absent target never causes an error or crash in the parser
or the semantic checker.  The parser half holds — parsing succeeds and
the ButtonStmt carries no navigation target — but the semantic checker
unconditionally reads `nav.target` for every ButtonStmt, which on the
missing target is a JavaScript TypeError: the public parse call crashes
instead of succeeding. -/
theorem c1_label_only_button_crashes_checker :
    parseProgramF 100 c1Toks = .ok c1Prog ∧
    c1Prog.pages = [{ name := "Home", body := [.button "Help" none] }] ∧
    checkSemantics c1Prog false = .error .typeErrorE ∧
    parseAndCheckF 100 c1Toks false = .error (.inr .typeErrorE) :=
  ⟨rfl, rfl, rfl, rfl⟩

/-- C2: the claim says a syntactically valid pie chart with two series is
rejected with SR-14.  The parser accepts the program, and the semantic
checker — which implements no chart rule at all — accepts it in both
modes instead of rejecting it. -/
theorem c2_pie_two_series_accepted :
    parseProgramF 100 c2Toks = .ok c2Prog ∧
    (∃ s1 s2, c2Prog.pages =
      [{ name := "Home", body := [.chart "C" "pie" [s1, s2]] }]) ∧
    checkSemantics c2Prog false = .ok () ∧
    checkSemantics c2Prog true = .ok () :=
  ⟨rfl, ⟨_, _, rfl⟩, rfl, rfl⟩

/-- C3: the claim says a table whose row's cell count differs from its
column count is rejected with SR-10 (and zero-column/zero-row tables are
rejected too).  The checker implements no table rule: the spec's own
scenario-6 program (two columns, a one-cell row) passes validation, so a
validated program can violate the cell-count invariant. -/
theorem c3_table_cell_mismatch_accepted :
    parseProgramF 100 c3Toks = .ok c3Prog ∧
    c3Prog.pages = [{ name := "Home", body :=
      [.table "T" ["A", "B"] [.mk [.strE "x"] none]] }] ∧
    checkSemantics c3Prog false = .ok () ∧
    checkSemantics c3Prog true = .ok () :=
  ⟨rfl, rfl, rfl, rfl⟩

/-- C4: the claim says every navigation target — including those inside
table-row action blocks — must name a declared page, the violation being
SR-3.  The checker's statement walk has no TableStmt case, so a button
inside a row action block targeting the undeclared page `Nowhere` is
never examined and the program passes validation. -/
theorem c4_table_row_nav_unchecked :
    parseProgramF 100 c4Toks = .ok c4Prog ∧
    (pageNamesOf c4Prog).contains "Nowhere" = false ∧
    checkSemantics c4Prog false = .ok () :=
  ⟨rfl, rfl, rfl⟩

/-- C5: the claim says the lexer emits a keyword token exactly for the
spec's reserved-word list, and every other identifier-shaped word becomes
IDENT.  The lexer's KEYWORDS table additionally reserves password, email,
date, dropdown and radio: the word `email` is lexed as a keyword token,
not IDENT — and since the parser's identifier allow-list omits these five
words, the repository's own test program (`field email`) then fails to
parse. -/
theorem c5_extra_keywords_lexed :
    lexWordToken "email" = .kw "email" ∧
    lexWordToken "email" ≠ .identT "email" ∧
    specC5Keywords.contains "email" = false ∧
    KEYWORDS.contains "email" = true ∧
    parseStatementF 100 [.kw "field", .kw "email"] = .error .parseError ∧
    (∀ w, KEYWORDS.contains w = false → lexWordToken w = .identT w) :=
  ⟨rfl, by decide, rfl, rfl, rfl,
   fun w h => by simp only [lexWordToken, h, Bool.false_eq_true, if_false]⟩

/-- C6: the claim says that in strict mode SR-4 fires exactly when a page
is outside the reachable set, with navigation edges contributed also from
inside table-row action blocks.  The reachability traversal never looks
inside TableStmt, so page `Detail` — targeted only by a row-action
button of the entry page — is reported as an SR-4 orphan even though the
claim's edge relation reaches it (the claim's non-strict half does hold:
with strictMode false the program passes). -/
theorem c6_row_block_edge_ignored_sr4 :
    parseProgramF 100 c6Toks = .ok c6Prog ∧
    (pageNamesOf c6Prog).contains "Detail" = true ∧
    checkSemantics c6Prog true = .error (.semanticE .sr4) ∧
    checkSemantics c6Prog false = .ok () :=
  ⟨rfl, rfl, rfl, rfl⟩

/-- C10: a trailing comma before the closing `]` of a table's columns
list or of a row's cell list is accepted, and parsing is unchanged: the
collection loops treat `, ]` exactly like `]` (for every fuel and every
accumulated prefix), and on a complete table statement both spellings
yield the identical TableStmt. -/
theorem c10_trailing_comma_equivalence :
    (∀ fuel acc rest, columnsLoopF fuel acc (.comma :: .rbracket :: rest) =
        columnsLoopF fuel acc (.rbracket :: rest)) ∧
    (∀ fuel acc rest, cellsLoopF fuel acc (.comma :: .rbracket :: rest) =
        cellsLoopF fuel acc (.rbracket :: rest)) ∧
    parseTableStmtF 100 c10TrailToks = parseTableStmtF 100 c10PlainToks ∧
    parseTableStmtF 100 c10TrailToks =
      .ok (.table "T" ["A", "B"] [.mk [.numE "1", .numE "2"] none], []) := by
  refine ⟨fun fuel acc rest => ?_, fun fuel acc rest => ?_, rfl, rfl⟩
  · cases fuel <;> rfl
  · cases fuel <;> rfl

/-!
## C8: action uniqueness (SR-6) matches the claim's counting semantics
-/

/-- bumpCount adds `v` to the stored count of `k` and changes no other
key's count. -/
theorem countOf_bumpCount (m : List (String × Nat)) (k : String) (v : Nat) (a : String) :
    countOf (bumpCount m k v) a = countOf m a + (if k = a then v else 0) := by
  induction m with
  | nil => by_cases h : k = a <;> simp [bumpCount, countOf, h]
  | cons p rest ih =>
      by_cases hpk : p.1 = k
      · by_cases hka : k = a
        · have hpa : p.1 = a := hpk.trans hka
          simp [bumpCount, countOf, hpk, hpa, hka]
        · have hpa : ¬ p.1 = a := fun h => hka (hpk.symm.trans h)
          simp [bumpCount, countOf, hpk, hpa, hka]
      · by_cases hpa : p.1 = a
        · have hka : ¬ k = a := fun h => hpk (hpa.trans h.symm)
          simp only [bumpCount, if_neg hpk]
          simp [countOf, hpa, hka]
        · simp only [bumpCount, if_neg hpk]
          simp [countOf, hpa, ih]

/-- The keys after a bumpCount are the old keys plus `k`. -/
theorem mem_keys_bumpCount {m : List (String × Nat)} {k : String} {v : Nat} {x : String} :
    x ∈ (bumpCount m k v).map Prod.fst ↔ x ∈ m.map Prod.fst ∨ x = k := by
  induction m with
  | nil => simp [bumpCount]
  | cons p rest ih =>
      simp only [bumpCount]
      split_ifs with hpk
      · subst hpk
        simp only [List.map_cons, List.mem_cons]
        tauto
      · simp only [List.map_cons, List.mem_cons, ih]
        tauto

/-- bumpCount preserves key distinctness. -/
theorem keysNodup_bumpCount {m : List (String × Nat)} (k : String) (v : Nat)
    (h : keysNodup m) : keysNodup (bumpCount m k v) := by
  induction m with
  | nil => simp [bumpCount, keysNodup]
  | cons p rest ih =>
      simp only [keysNodup, List.map_cons, List.nodup_cons] at h
      simp only [bumpCount]
      split_ifs with hpk
      · simpa [keysNodup] using h
      · have h2 := ih h.2
        simp only [keysNodup, List.map_cons, List.nodup_cons]
        refine ⟨fun hc => ?_, h2⟩
        rcases mem_keys_bumpCount.1 hc with hm | he
        · exact h.1 hm
        · exact hpk he

/-- mergeCounts adds, key by key, all of `m`'s stored values. -/
theorem countOf_mergeCounts (a : String) :
    ∀ (m acc : List (String × Nat)),
      countOf (mergeCounts acc m) a = countOf acc a + entrySum a m := by
  intro m
  induction m with
  | nil => intro acc; simp [mergeCounts, entrySum]
  | cons p rest ih =>
      intro acc
      have hfold : mergeCounts acc (p :: rest) = mergeCounts (bumpCount acc p.1 p.2) rest := by
        simp [mergeCounts]
      rw [hfold, ih, countOf_bumpCount, entrySum]
      omega

/-- mergeCounts preserves key distinctness of the accumulator. -/
theorem keysNodup_mergeCounts {acc : List (String × Nat)}
    (m : List (String × Nat)) (h : keysNodup acc) : keysNodup (mergeCounts acc m) := by
  induction m generalizing acc with
  | nil => simpa [mergeCounts] using h
  | cons p rest ih =>
      have hfold : mergeCounts acc (p :: rest) = mergeCounts (bumpCount acc p.1 p.2) rest := by
        simp [mergeCounts]
      rw [hfold]
      exact ih (keysNodup_bumpCount _ _ h)

/-- A key that never occurs contributes no entry sum. -/
theorem entrySum_of_not_mem {a : String} {m : List (String × Nat)}
    (h : ¬ a ∈ m.map Prod.fst) : entrySum a m = 0 := by
  induction m with
  | nil => rfl
  | cons p rest ih =>
      simp only [List.map_cons, List.mem_cons, not_or] at h
      have hpa : ¬ p.1 = a := fun hh => h.1 hh.symm
      simp [entrySum, hpa, ih h.2]

/-- On a distinct-key map the entry sum for a key is its stored value. -/
theorem entrySum_eq_countOf {m : List (String × Nat)} (a : String)
    (h : keysNodup m) : entrySum a m = countOf m a := by
  induction m with
  | nil => rfl
  | cons p rest ih =>
      simp only [keysNodup, List.map_cons, List.nodup_cons] at h
      by_cases hpa : p.1 = a
      · have hz : entrySum a rest = 0 := entrySum_of_not_mem (hpa ▸ h.1)
        simp [entrySum, countOf, hpa, hz]
      · simp [entrySum, countOf, hpa, ih h.2]

/-- collectActsAux preserves key distinctness of its accumulator. -/
theorem keysNodup_collectActsAux :
    ∀ (acc : List (String × Nat)) (stmts : List Statement),
      keysNodup acc → keysNodup (collectActsAux acc stmts) := by
  intro acc stmts
  induction acc, stmts using collectActsAux.induct with
  | case1 acc => intro h; simpa [collectActsAux] using h
  | case2 acc label action rest ih =>
      intro h
      rw [collectActsAux]
      exact ih (keysNodup_bumpCount _ _ h)
  | case3 acc label action rest ih =>
      intro h
      rw [collectActsAux]
      exact ih (keysNodup_bumpCount _ _ h)
  | case4 acc c body rest ihBody ihRest =>
      intro h
      rw [collectActsAux]
      exact ihRest (keysNodup_mergeCounts _ h)
  | case5 acc s rest hns hnc hncond ih =>
      intro h
      rw [collectActsAux.eq_5 _ _ _ hns hnc hncond]
      exact ih h

/-- The count collected for an action equals the claim's recursive
occurrence count, on top of whatever the accumulator already held. -/
theorem countOf_collectActsAux (a : String) :
    ∀ (acc : List (String × Nat)) (stmts : List Statement),
      countOf (collectActsAux acc stmts) a = countOf acc a + specActionCount a stmts := by
  intro acc stmts
  induction acc, stmts using collectActsAux.induct with
  | case1 acc => simp [collectActsAux, specActionCount]
  | case2 acc label action rest ih =>
      rw [collectActsAux, specActionCount, ih, countOf_bumpCount]
      omega
  | case3 acc label action rest ih =>
      rw [collectActsAux, specActionCount, ih, countOf_bumpCount]
      omega
  | case4 acc c body rest ihBody ihRest =>
      rw [collectActsAux, specActionCount, ihRest, countOf_mergeCounts,
        entrySum_eq_countOf a (keysNodup_collectActsAux [] body (by simp [keysNodup])),
        ihBody]
      simp [countOf]
      omega
  | case5 acc s rest hns hnc hncond ih =>
      rw [collectActsAux.eq_5 _ _ _ hns hnc hncond, ih]
      cases s with
      | submit l act => exact absurd rfl (hns l act)
      | click l act => exact absurd rfl (hnc l act)
      | cond c b => exact absurd rfl (hncond c b)
      | header s => simp [specActionCount]
      | text s => simp [specActionCount]
      | button l n => simp [specActionCount]
      | link l n => simp [specActionCount]
      | field n => simp [specActionCount]
      | input n => simp [specActionCount]
      | use c => simp [specActionCount]
      | handler a os => simp [specActionCount]
      | queryS n t d => simp [specActionCount]
      | table n c r => simp [specActionCount]
      | chart n t s => simp [specActionCount]

/-- On a distinct-key map, each entry stores exactly the map's value for
its key. -/
theorem countOf_eq_of_mem {m : List (String × Nat)} {p : String × Nat}
    (hk : keysNodup m) (hmem : p ∈ m) : countOf m p.1 = p.2 := by
  induction m with
  | nil => cases hmem
  | cons q rest ih =>
      simp only [keysNodup, List.map_cons, List.nodup_cons] at hk
      rcases List.mem_cons.1 hmem with rfl | hmem'
      · simp [countOf]
      · have hne : ¬ q.1 = p.1 := by
          intro h
          exact hk.1 (h ▸ List.mem_map_of_mem Prod.fst hmem')
        simp [countOf, hne, ih hk.2 hmem']

/-- A key with a positive stored value has an entry holding that value. -/
theorem countOf_pos_mem {m : List (String × Nat)} {a : String}
    (h : 0 < countOf m a) : ∃ p ∈ m, p.1 = a ∧ p.2 = countOf m a := by
  induction m with
  | nil => simp [countOf] at h
  | cons q rest ih =>
      by_cases hqa : q.1 = a
      · exact ⟨q, List.mem_cons_self q rest, hqa, by simp [countOf, hqa]⟩
      · rw [countOf, if_neg hqa] at h ⊢
        obtain ⟨p, hmem, hkey, hval⟩ := ih h
        exact ⟨p, List.mem_cons_of_mem q hmem, hkey, hval⟩

/-- C8: checkActionUniqueness raises SR-6 exactly when some action name
has two or more submit/click occurrences in the scope, occurrences being
summed across the top-level statement list and all recursively nested
conditional bodies (so one use inside a conditional plus one outside is a
duplicate); a scope whose action names are all distinct passes. -/
theorem c8_action_uniqueness_iff (stmts : List Statement) :
    (checkActionUniqueness stmts = .error (.semanticE .sr6) ↔
      ∃ a, 2 ≤ specActionCount a stmts) ∧
    ((¬ ∃ a, 2 ≤ specActionCount a stmts) → checkActionUniqueness stmts = .ok ()) := by
  have hkey : keysNodup (collectActions stmts) :=
    keysNodup_collectActsAux [] stmts (by simp [keysNodup])
  have hcount : ∀ a, countOf (collectActions stmts) a = specActionCount a stmts := by
    intro a
    have h := countOf_collectActsAux a [] stmts
    simpa [collectActions, countOf] using h
  have fwd : checkActionUniqueness stmts = .error (.semanticE .sr6) →
      ∃ a, 2 ≤ specActionCount a stmts := by
    intro h
    unfold checkActionUniqueness at h
    cases hf : (collectActions stmts).find? (fun p => 1 < p.2) with
    | none => rw [hf] at h; cases h
    | some p =>
        have hmem := List.mem_of_find?_eq_some hf
        have hp : 1 < p.2 := by simpa using List.find?_some hf
        have hcp := countOf_eq_of_mem hkey hmem
        refine ⟨p.1, ?_⟩
        rw [← hcount p.1, hcp]
        omega
  have bwd : (∃ a, 2 ≤ specActionCount a stmts) →
      checkActionUniqueness stmts = .error (.semanticE .sr6) := by
    rintro ⟨a, ha⟩
    have hc : 2 ≤ countOf (collectActions stmts) a := by rw [hcount a]; exact ha
    obtain ⟨p, hmem, hpa, hpv⟩ := @countOf_pos_mem (collectActions stmts) a (by omega)
    have hsome : ((collectActions stmts).find? (fun p => 1 < p.2)).isSome := by
      rw [List.find?_isSome]
      exact ⟨p, hmem, by simp [hpv]; omega⟩
    unfold checkActionUniqueness
    obtain ⟨q, hq⟩ := Option.isSome_iff_exists.1 hsome
    rw [hq]
  refine ⟨⟨fwd, bwd⟩, fun hnot => ?_⟩
  unfold checkActionUniqueness
  cases hf : (collectActions stmts).find? (fun p => 1 < p.2) with
  | none => rfl
  | some p =>
      exfalso
      apply hnot
      have hmem := List.mem_of_find?_eq_some hf
      have hp : 1 < p.2 := by simpa using List.find?_some hf
      have hcp := countOf_eq_of_mem hkey hmem
      refine ⟨p.1, ?_⟩
      rw [← hcount p.1, hcp]
      omega

/-- C8 witness: a scope using action `auth` once at top level and once
inside a conditional is flagged with SR-6. -/
theorem c8_action_uniqueness_iff_witness :
    checkActionUniqueness [Statement.submit "Go" "auth",
      Statement.cond (.boolE true) [Statement.click "Again" "auth"]] =
      .error (.semanticE .sr6) :=
  (c8_action_uniqueness_iff _).1.mpr
    ⟨"auth", by simp [specActionCount]⟩

/-!
## C9: the expression parser's output respects the claimed precedence
-/

/-- A primary-level expression is unary level. -/
theorem isUnaryLevel_of_isPrimaryLevel {e : Expression}
    (h : isPrimaryLevel e = true) : isUnaryLevel e = true := by
  cases e <;> simp_all [isPrimaryLevel, isUnaryLevel]

/-- A unary-level expression is additive level. -/
theorem isAddLevel_of_isUnaryLevel {e : Expression}
    (h : isUnaryLevel e = true) : isAddLevel e = true := by
  cases e with
  | binE op l r => cases op <;> simp_all [isUnaryLevel, isPrimaryLevel, isAddLevel]
  | _ => simp_all [isAddLevel]

/-- An additive-level expression is comparison level. -/
theorem isCompLevel_of_isAddLevel {e : Expression}
    (h : isAddLevel e = true) : isCompLevel e = true := by
  cases e with
  | binE op l r => cases op <;> simp_all [isAddLevel, isUnaryLevel, isPrimaryLevel,
      isCompLevel, isCompOp]
  | _ => simp_all [isCompLevel]

/-- A comparison-level expression is and level. -/
theorem isAndLevel_of_isCompLevel {e : Expression}
    (h : isCompLevel e = true) : isAndLevel e = true := by
  cases e with
  | binE op l r => cases op <;> simp_all [isCompLevel, isCompOp, isAddLevel,
      isUnaryLevel, isPrimaryLevel, isAndLevel]
  | _ => simp_all [isAndLevel]

/-- An and-level expression is or level. -/
theorem isOrLevel_of_isAndLevel {e : Expression}
    (h : isAndLevel e = true) : isOrLevel e = true := by
  cases e with
  | binE op l r => cases op <;> simp_all [isAndLevel, isCompLevel, isCompOp,
      isAddLevel, isUnaryLevel, isPrimaryLevel, isOrLevel]
  | _ => simp_all [isOrLevel]

/-- parsePrimary only builds primary-level expressions. -/
theorem parsePrimaryF_level : ∀ {toks : List Token} {e : Expression} {rest : List Token},
    parsePrimaryF toks = .ok (e, rest) → isPrimaryLevel e = true := by
  intro toks e rest h
  rw [parsePrimaryF.eq_def] at h
  split at h <;> (try split at h) <;>
    first
      | (injection h with h1
         injection h1 with he hr
         subst he
         rfl)
      | cases h

/-- parseUnary only builds unary-level expressions. -/
theorem parseUnaryF_level : ∀ {toks : List Token} {e : Expression} {rest : List Token},
    parseUnaryF toks = .ok (e, rest) → isUnaryLevel e = true := by
  intro toks e rest h
  rw [parseUnaryF.eq_def] at h
  split at h
  · next rest0 =>
      cases hp : parsePrimaryF rest0 with
      | ok pr =>
          obtain ⟨p, rest'⟩ := pr
          rw [hp] at h
          simp only [Except.ok.injEq, Prod.mk.injEq] at h
          obtain ⟨he, -⟩ := h
          subst he
          simpa [isUnaryLevel] using parsePrimaryF_level hp
      | error pe => rw [hp] at h; cases h
  · exact isUnaryLevel_of_isPrimaryLevel (parsePrimaryF_level h)

/-- The additive while-loop preserves additive level. -/
theorem addLoopF_level : ∀ (f : Nat) (left : Expression) (toks : List Token)
    {e : Expression} {rest : List Token},
    isAddLevel left = true → addLoopF f left toks = .ok (e, rest) →
    isAddLevel e = true := by
  intro f
  induction f with
  | zero => intro left toks e rest hl h; cases h
  | succ f ih =>
      intro left toks e rest hl h
      simp only [addLoopF] at h
      split at h
      · next rest0 =>
          cases hu : parseUnaryF rest0 with
          | ok pr =>
              obtain ⟨r, rest'⟩ := pr
              simp only [hu] at h
              exact ih _ _ (by simp [isAddLevel, hl, parseUnaryF_level hu]) h
          | error pe => rw [hu] at h; cases h
      · simp only [Except.ok.injEq, Prod.mk.injEq] at h
        obtain ⟨he, -⟩ := h
        subst he
        exact hl

/-- parseAdditive only builds additive-level expressions. -/
theorem parseAddF_level : ∀ (f : Nat) {toks : List Token} {e : Expression}
    {rest : List Token},
    parseAddF f toks = .ok (e, rest) → isAddLevel e = true := by
  intro f toks e rest h
  cases f with
  | zero => cases h
  | succ f =>
      simp only [parseAddF] at h
      cases hu : parseUnaryF toks with
      | ok pr =>
          obtain ⟨l, rest'⟩ := pr
          simp only [hu] at h
          exact addLoopF_level f l rest'
            (isAddLevel_of_isUnaryLevel (parseUnaryF_level hu)) h
      | error pe => rw [hu] at h; cases h

/-- A token recognized as a comparison operator maps to a comparison
BinOp. -/
theorem isCompOp_of_compOpOf {t : Token} {op : BinOp}
    (h : compOpOf t = some op) : isCompOp op = true := by
  cases t <;> simp [compOpOf] at h <;> simp [← h, isCompOp]

/-- parseComparison only builds comparison-level expressions: an additive,
or a single non-chaining comparison of two additives. -/
theorem parseCompF_level : ∀ (f : Nat) {toks : List Token} {e : Expression}
    {rest : List Token},
    parseCompF f toks = .ok (e, rest) → isCompLevel e = true := by
  intro f toks e rest h
  cases f with
  | zero => cases h
  | succ f =>
      simp only [parseCompF] at h
      cases ha : parseAddF f toks with
      | error pe => rw [ha] at h; cases h
      | ok pr =>
          obtain ⟨l, rest'⟩ := pr
          simp only [ha] at h
          cases rest' with
          | nil =>
              simp only [Except.ok.injEq, Prod.mk.injEq] at h
              obtain ⟨he, -⟩ := h
              subst he
              exact isCompLevel_of_isAddLevel (parseAddF_level f ha)
          | cons t rest'' =>
              cases hc : compOpOf t with
              | none =>
                  simp only [hc, Except.ok.injEq, Prod.mk.injEq] at h
                  obtain ⟨he, -⟩ := h
                  subst he
                  exact isCompLevel_of_isAddLevel (parseAddF_level f ha)
              | some op =>
                  simp only [hc] at h
                  cases ha2 : parseAddF f rest'' with
                  | error pe => rw [ha2] at h; cases h
                  | ok pr2 =>
                      obtain ⟨r, rest3⟩ := pr2
                      simp only [ha2, Except.ok.injEq, Prod.mk.injEq] at h
                      obtain ⟨he, -⟩ := h
                      subst he
                      simp [isCompLevel, isCompOp_of_compOpOf hc,
                        parseAddF_level f ha, parseAddF_level f ha2]

/-- The `&&` while-loop preserves and level. -/
theorem andLoopF_level : ∀ (f : Nat) (left : Expression) (toks : List Token)
    {e : Expression} {rest : List Token},
    isAndLevel left = true → andLoopF f left toks = .ok (e, rest) →
    isAndLevel e = true := by
  intro f
  induction f with
  | zero => intro left toks e rest hl h; cases h
  | succ f ih =>
      intro left toks e rest hl h
      simp only [andLoopF] at h
      split at h
      · next rest0 =>
          cases hu : parseCompF f rest0 with
          | ok pr =>
              obtain ⟨r, rest'⟩ := pr
              simp only [hu] at h
              exact ih _ _ (by simp [isAndLevel, hl, parseCompF_level f hu]) h
          | error pe => rw [hu] at h; cases h
      · simp only [Except.ok.injEq, Prod.mk.injEq] at h
        obtain ⟨he, -⟩ := h
        subst he
        exact hl

/-- parseAnd only builds and-level expressions. -/
theorem parseAndF_level : ∀ (f : Nat) {toks : List Token} {e : Expression}
    {rest : List Token},
    parseAndF f toks = .ok (e, rest) → isAndLevel e = true := by
  intro f toks e rest h
  cases f with
  | zero => cases h
  | succ f =>
      simp only [parseAndF] at h
      cases hu : parseCompF f toks with
      | ok pr =>
          obtain ⟨l, rest'⟩ := pr
          simp only [hu] at h
          exact andLoopF_level f l rest'
            (isAndLevel_of_isCompLevel (parseCompF_level f hu)) h
      | error pe => rw [hu] at h; cases h

/-- The `||` while-loop preserves or level. -/
theorem orLoopF_level : ∀ (f : Nat) (left : Expression) (toks : List Token)
    {e : Expression} {rest : List Token},
    isOrLevel left = true → orLoopF f left toks = .ok (e, rest) →
    isOrLevel e = true := by
  intro f
  induction f with
  | zero => intro left toks e rest hl h; cases h
  | succ f ih =>
      intro left toks e rest hl h
      simp only [orLoopF] at h
      split at h
      · next rest0 =>
          cases hu : parseAndF f rest0 with
          | ok pr =>
              obtain ⟨r, rest'⟩ := pr
              simp only [hu] at h
              exact ih _ _ (by simp [isOrLevel, hl, parseAndF_level f hu]) h
          | error pe => rw [hu] at h; cases h
      · simp only [Except.ok.injEq, Prod.mk.injEq] at h
        obtain ⟨he, -⟩ := h
        subst he
        exact hl

/-- parseOr only builds or-level expressions. -/
theorem parseOrF_level : ∀ (f : Nat) {toks : List Token} {e : Expression}
    {rest : List Token},
    parseOrF f toks = .ok (e, rest) → isOrLevel e = true := by
  intro f toks e rest h
  cases f with
  | zero => cases h
  | succ f =>
      simp only [parseOrF] at h
      cases hu : parseAndF f toks with
      | ok pr =>
          obtain ⟨l, rest'⟩ := pr
          simp only [hu] at h
          exact orLoopF_level f l rest'
            (isOrLevel_of_isAndLevel (parseAndF_level f hu)) h
      | error pe => rw [hu] at h; cases h

/-- C9: every expression the parser accepts has the claimed precedence
shape — `||` over `&&` over a single non-chaining comparison over
left-associative `+` over unary `!` over primaries — and, concretely, in
`a < b < c` the parser consumes only the first comparison, leaving the
second `<` unconsumed in the remaining token stream. -/
theorem c9_parsed_expressions_respect_precedence :
    (∀ (fuel : Nat) (toks : List Token) (e : Expression) (rest : List Token),
      parseExpressionF fuel toks = .ok (e, rest) → isOrLevel e = true) ∧
    parseExpressionF 100
        [.identT "a", .ltT, .identT "b", .ltT, .identT "c"] =
      .ok (.binE .lt (.identE "a") (.identE "b"), [.ltT, .identT "c"]) ∧
    parseExpressionF 100
        [.identT "a", .plusT, .identT "b", .plusT, .identT "c"] =
      .ok (.binE .plus (.binE .plus (.identE "a") (.identE "b")) (.identE "c"), []) := by
  refine ⟨fun fuel toks e rest h => parseOrF_level fuel h, rfl, rfl⟩

/-- C9 witness: the level theorem applied to the parse of
`a + b < c && d || e`, whose hypothesis is discharged by evaluation. -/
theorem c9_parsed_expressions_respect_precedence_witness :
    isOrLevel (.binE .orOp
      (.binE .andOp
        (.binE .lt (.binE .plus (.identE "a") (.identE "b")) (.identE "c"))
        (.identE "d"))
      (.identE "e")) = true :=
  c9_parsed_expressions_respect_precedence.1 100
    [.identT "a", .plusT, .identT "b", .ltT, .identT "c", .andT, .identT "d",
     .orT, .identT "e"] _ [] rfl

/-!
## C7: cycle detection (SR-5)

The development below proves that checkSR5ComponentCycles raises SR-5
exactly when the component-use graph has a cycle: soundness via the
in-progress-stack invariant, completeness via the topological order of
finish times recorded by the instrumented dfs, and a fuel-sufficiency
argument showing the embedding's fuel bound never fires.
-/

/-- List.contains agrees with membership (String instances are lawful). -/
theorem contains_iff_mem {l : List String} {a : String} :
    l.contains a = true ↔ a ∈ l := by
  induction l with
  | nil => simp
  | cons x xs ih => simp [List.contains_cons, ih]

/-- Unfolding: dfsVisit out of fuel. -/
theorem dfsVisit_zero (E : String → List String) (n : String) (vis stk : List String) :
    dfsVisit 0 E n vis stk = .error .fuelOutE := by
  rw [dfsVisit.eq_def]

/-- Unfolding: dfsVisit with fuel. -/
theorem dfsVisit_succ (f : Nat) (E : String → List String) (n : String)
    (vis stk : List String) :
    dfsVisit (f + 1) E n vis stk =
      if stk.contains n then .error (.semanticE .sr5)
      else if vis.contains n then .ok vis
      else dfsDeps f E (E n) (n :: vis) (n :: stk) := by
  rw [dfsVisit.eq_def]

/-- Unfolding: dfsDeps on the empty dependency list. -/
theorem dfsDeps_nil (f : Nat) (E : String → List String) (vis stk : List String) :
    dfsDeps f E [] vis stk = .ok vis := by
  rw [dfsDeps.eq_def]

/-- Unfolding: dfsDeps on a dependency. -/
theorem dfsDeps_cons (f : Nat) (E : String → List String) (d : String)
    (ds vis stk : List String) :
    dfsDeps f E (d :: ds) vis stk =
      match dfsVisit f E d vis stk with
      | .ok vis' => dfsDeps f E ds vis' stk
      | .error e => .error e := by
  rw [dfsDeps.eq_def]

/-- Unfolding: dfsVisitF out of fuel. -/
theorem dfsVisitF_zero (E : String → List String) (n : String)
    (vis fin stk : List String) :
    dfsVisitF 0 E n vis fin stk = .error .fuelOutE := by
  rw [dfsVisitF.eq_def]

/-- Unfolding: dfsVisitF with fuel. -/
theorem dfsVisitF_succ (f : Nat) (E : String → List String) (n : String)
    (vis fin stk : List String) :
    dfsVisitF (f + 1) E n vis fin stk =
      if stk.contains n then .error (.semanticE .sr5)
      else if vis.contains n then .ok (vis, fin)
      else
        match dfsDepsF f E (E n) (n :: vis) fin (n :: stk) with
        | .ok (vis', fin') => .ok (vis', n :: fin')
        | .error e => .error e := by
  rw [dfsVisitF.eq_def]

/-- Unfolding: dfsDepsF on the empty dependency list. -/
theorem dfsDepsF_nil (f : Nat) (E : String → List String) (vis fin stk : List String) :
    dfsDepsF f E [] vis fin stk = .ok (vis, fin) := by
  rw [dfsDepsF.eq_def]

/-- Unfolding: dfsDepsF on a dependency. -/
theorem dfsDepsF_cons (f : Nat) (E : String → List String) (d : String)
    (ds vis fin stk : List String) :
    dfsDepsF f E (d :: ds) vis fin stk =
      match dfsVisitF f E d vis fin stk with
      | .ok (vis', fin') => dfsDepsF f E ds vis' fin' stk
      | .error e => .error e := by
  rw [dfsDepsF.eq_def]

/-- The dfs raises only SR-5 or the embedding's fuel marker. -/
theorem dfs_error_classified (E : String → List String) : ∀ f : Nat,
    (∀ n vis stk e, dfsVisit f E n vis stk = .error e →
        e = .semanticE .sr5 ∨ e = .fuelOutE) ∧
    (∀ ds vis stk e, dfsDeps f E ds vis stk = .error e →
        e = .semanticE .sr5 ∨ e = .fuelOutE) := by
  intro f
  induction f with
  | zero =>
      constructor
      · intro n vis stk e h
        rw [dfsVisit_zero] at h
        injection h with h1
        exact .inr h1.symm
      · intro ds vis stk e h
        cases ds with
        | nil => rw [dfsDeps_nil] at h; cases h
        | cons d ds' =>
            rw [dfsDeps_cons, dfsVisit_zero] at h
            injection h with h1
            exact .inr h1.symm
  | succ f ih =>
      have P1 : ∀ n vis stk e, dfsVisit (f + 1) E n vis stk = .error e →
          e = .semanticE .sr5 ∨ e = .fuelOutE := by
        intro n vis stk e h
        rw [dfsVisit_succ] at h
        by_cases h1 : stk.contains n = true
        · rw [if_pos h1] at h
          injection h with he
          exact .inl he.symm
        · rw [if_neg h1] at h
          by_cases h2 : vis.contains n = true
          · rw [if_pos h2] at h
            cases h
          · rw [if_neg h2] at h
            exact ih.2 _ _ _ _ h
      refine ⟨P1, ?_⟩
      intro ds
      induction ds with
      | nil => intro vis stk e h; rw [dfsDeps_nil] at h; cases h
      | cons d ds' ihds =>
          intro vis stk e h
          rw [dfsDeps_cons] at h
          cases hv : dfsVisit (f + 1) E d vis stk with
          | ok vis' =>
              rw [hv] at h
              exact ihds _ _ _ h
          | error e' =>
              rw [hv] at h
              injection h with h1
              subst h1
              exact P1 _ _ _ _ hv

/-- A successful dfs only grows the visited set. -/
theorem dfs_mono (E : String → List String) : ∀ f : Nat,
    (∀ n vis stk vis', dfsVisit f E n vis stk = .ok vis' → ∀ x ∈ vis, x ∈ vis') ∧
    (∀ ds vis stk vis', dfsDeps f E ds vis stk = .ok vis' → ∀ x ∈ vis, x ∈ vis') := by
  intro f
  induction f with
  | zero =>
      constructor
      · intro n vis stk vis' h
        rw [dfsVisit_zero] at h
        cases h
      · intro ds vis stk vis' h
        cases ds with
        | nil => rw [dfsDeps_nil] at h; cases h; exact fun x hx => hx
        | cons d ds' => rw [dfsDeps_cons, dfsVisit_zero] at h; cases h
  | succ f ih =>
      have P1 : ∀ n vis stk vis', dfsVisit (f + 1) E n vis stk = .ok vis' →
          ∀ x ∈ vis, x ∈ vis' := by
        intro n vis stk vis' h
        rw [dfsVisit_succ] at h
        by_cases h1 : stk.contains n = true
        · rw [if_pos h1] at h
          cases h
        · rw [if_neg h1] at h
          by_cases h2 : vis.contains n = true
          · rw [if_pos h2] at h
            injection h with he
            subst he
            exact fun x hx => hx
          · rw [if_neg h2] at h
            intro x hx
            exact ih.2 _ _ _ _ h x (List.mem_cons_of_mem n hx)
      refine ⟨P1, ?_⟩
      intro ds
      induction ds with
      | nil =>
          intro vis stk vis' h
          rw [dfsDeps_nil] at h
          cases h
          exact fun x hx => hx
      | cons d ds' ihds =>
          intro vis stk vis' h
          rw [dfsDeps_cons] at h
          cases hv : dfsVisit (f + 1) E d vis stk with
          | ok vis1 =>
              rw [hv] at h
              intro x hx
              exact ihds _ _ _ h x (P1 _ _ _ _ hv x hx)
          | error e' => rw [hv] at h; cases h

/-- Walking a Chain' from its head to any later element yields a
transitive path. -/
theorem chain'_transGen {R : String → String → Prop} :
    ∀ (xs : List String) (x z : String), List.Chain' R (x :: xs) → z ∈ xs →
      Relation.TransGen R x z := by
  intro xs
  induction xs with
  | nil => intro x z _ hz; cases hz
  | cons y rest ih =>
      intro x z hch hz
      have h1 := List.chain'_cons.mp hch
      rcases List.mem_cons.mp hz with rfl | hz'
      · exact Relation.TransGen.single h1.1
      · exact Relation.TransGen.head h1.1 (ih y z h1.2 hz')

/-- Soundness of the dfs: an SR-5 error implies a use-edge cycle.  The
stack precondition says each element was entered from the one below it. -/
theorem dfs_sound (E : String → List String) : ∀ f : Nat,
    (∀ n vis stk, List.Chain' (fun a b => a ∈ E b) (n :: stk) →
        dfsVisit f E n vis stk = .error (.semanticE .sr5) →
        ∃ c, Relation.TransGen (fun x y => y ∈ E x) c c) ∧
    (∀ ds vis stk, (∀ d ∈ ds, List.Chain' (fun a b => a ∈ E b) (d :: stk)) →
        dfsDeps f E ds vis stk = .error (.semanticE .sr5) →
        ∃ c, Relation.TransGen (fun x y => y ∈ E x) c c) := by
  intro f
  induction f with
  | zero =>
      constructor
      · intro n vis stk _ h
        rw [dfsVisit_zero] at h
        simp at h
      · intro ds vis stk _ h
        cases ds with
        | nil => rw [dfsDeps_nil] at h; cases h
        | cons d ds' =>
            rw [dfsDeps_cons, dfsVisit_zero] at h
            simp at h
  | succ f ih =>
      have P1 : ∀ n vis stk, List.Chain' (fun a b => a ∈ E b) (n :: stk) →
          dfsVisit (f + 1) E n vis stk = .error (.semanticE .sr5) →
          ∃ c, Relation.TransGen (fun x y => y ∈ E x) c c := by
        intro n vis stk hch h
        rw [dfsVisit_succ] at h
        by_cases h1 : stk.contains n = true
        · have hmem : n ∈ stk := contains_iff_mem.mp h1
          exact ⟨n, (Relation.transGen_swap).mpr (chain'_transGen stk n n hch hmem)⟩
        · rw [if_neg h1] at h
          by_cases h2 : vis.contains n = true
          · rw [if_pos h2] at h; simp at h
          · rw [if_neg h2] at h
            refine ih.2 (E n) (n :: vis) (n :: stk) ?_ h
            intro d hd
            exact List.chain'_cons.mpr ⟨hd, hch⟩
      refine ⟨P1, ?_⟩
      intro ds
      induction ds with
      | nil => intro vis stk _ h; rw [dfsDeps_nil] at h; cases h
      | cons d ds' ihds =>
          intro vis stk hch h
          rw [dfsDeps_cons] at h
          cases hv : dfsVisit (f + 1) E d vis stk with
          | ok vis1 =>
              rw [hv] at h
              exact ihds _ _ (fun d' hd' => hch d' (List.mem_cons_of_mem d hd')) h
          | error e' =>
              rw [hv] at h
              injection h with he
              subst he
              exact P1 d vis stk (hch d (List.mem_cons_self d ds')) hv

/-- The top-level dfs loop is sound: SR-5 implies a cycle. -/
theorem dfsAll_sound (E : String → List String) (fuel : Nat) :
    ∀ (names vis : List String),
      dfsAll fuel E names vis = .error (.semanticE .sr5) →
      ∃ c, Relation.TransGen (fun x y => y ∈ E x) c c := by
  intro names
  induction names with
  | nil => intro vis h; simp [dfsAll] at h
  | cons n rest ih =>
      intro vis h
      simp only [dfsAll] at h
      cases hv : dfsVisit fuel E n vis [] with
      | ok vis' => rw [hv] at h; exact ih _ h
      | error e =>
          rw [hv] at h
          injection h with he
          subst he
          exact (dfs_sound E fuel).1 n vis [] (by simp) hv

/-- Growing the visited list cannot grow the unvisited remainder. -/
theorem toFinset_card_mono {vis vis' : List String}
    (h : ∀ x ∈ vis, x ∈ vis') (U : Finset String) :
    (U \ vis'.toFinset).card ≤ (U \ vis.toFinset).card := by
  apply Finset.card_le_card
  intro x hx
  simp only [Finset.mem_sdiff, List.mem_toFinset] at hx ⊢
  exact ⟨hx.1, fun hc => hx.2 (h x hc)⟩

/-- Fuel sufficiency: when the fuel exceeds the number of not-yet-visited
universe elements, the dfs never reports fuel exhaustion (every nested
level visits a fresh node of the closed universe `U`). -/
theorem dfs_no_fuelOut (E : String → List String) (U : List String)
    (hclo : ∀ u, ∀ w ∈ E u, w ∈ U) : ∀ f : Nat,
    (∀ n vis stk, n ∈ U → (U.toFinset \ vis.toFinset).card < f →
        dfsVisit f E n vis stk ≠ .error .fuelOutE) ∧
    (∀ ds vis stk, (∀ d ∈ ds, d ∈ U) → (U.toFinset \ vis.toFinset).card < f →
        dfsDeps f E ds vis stk ≠ .error .fuelOutE) := by
  intro f
  induction f with
  | zero =>
      constructor
      · intro n vis stk _ hcard
        exact absurd hcard (Nat.not_lt_zero _)
      · intro ds vis stk _ hcard
        exact absurd hcard (Nat.not_lt_zero _)
  | succ f ih =>
      have P1 : ∀ n vis stk, n ∈ U → (U.toFinset \ vis.toFinset).card < f + 1 →
          dfsVisit (f + 1) E n vis stk ≠ .error .fuelOutE := by
        intro n vis stk hU hcard h
        rw [dfsVisit_succ] at h
        by_cases h1 : stk.contains n = true
        · rw [if_pos h1] at h; simp at h
        · rw [if_neg h1] at h
          by_cases h2 : vis.contains n = true
          · rw [if_pos h2] at h; simp at h
          · rw [if_neg h2] at h
            have hnvis : n ∉ vis := fun hm => h2 (contains_iff_mem.mpr hm)
            have hmem : n ∈ U.toFinset \ vis.toFinset := by
              simp only [Finset.mem_sdiff, List.mem_toFinset]
              exact ⟨hU, hnvis⟩
            have heq : U.toFinset \ (n :: vis).toFinset =
                (U.toFinset \ vis.toFinset).erase n := by
              ext x
              simp only [Finset.mem_sdiff, Finset.mem_erase, List.mem_toFinset,
                List.toFinset_cons, Finset.mem_insert, List.mem_cons]
              tauto
            have hcard' : (U.toFinset \ (n :: vis).toFinset).card < f := by
              rw [heq, Finset.card_erase_of_mem hmem]
              have hpos : 0 < (U.toFinset \ vis.toFinset).card :=
                Finset.card_pos.mpr ⟨n, hmem⟩
              omega
            exact ih.2 (E n) (n :: vis) (n :: stk) (fun d hd => hclo n d hd) hcard' h
      refine ⟨P1, ?_⟩
      intro ds
      induction ds with
      | nil =>
          intro vis stk _ _ h
          rw [dfsDeps_nil] at h
          cases h
      | cons d ds' ihds =>
          intro vis stk hds hcard h
          rw [dfsDeps_cons] at h
          cases hv : dfsVisit (f + 1) E d vis stk with
          | ok vis1 =>
              rw [hv] at h
              have hmono := (dfs_mono E (f + 1)).1 d vis stk vis1 hv
              have hcard1 : (U.toFinset \ vis1.toFinset).card < f + 1 :=
                lt_of_le_of_lt (toFinset_card_mono hmono U.toFinset) hcard
              exact ihds vis1 stk (fun d' hd' => hds d' (List.mem_cons_of_mem d hd'))
                hcard1 h
          | error e' =>
              rw [hv] at h
              injection h with he
              subst he
              exact P1 d vis stk (hds d (List.mem_cons_self d ds')) hcard hv

/-- Erasing the finish-order instrumentation recovers the dfs exactly:
the write-only `fin` component never influences control flow. -/
theorem dfs_eq_dfsF (E : String → List String) : ∀ f : Nat,
    (∀ n vis stk fin, dfsVisit f E n vis stk =
        Except.map Prod.fst (dfsVisitF f E n vis fin stk)) ∧
    (∀ ds vis stk fin, dfsDeps f E ds vis stk =
        Except.map Prod.fst (dfsDepsF f E ds vis fin stk)) := by
  intro f
  induction f with
  | zero =>
      constructor
      · intro n vis stk fin
        rw [dfsVisit_zero, dfsVisitF_zero]
        rfl
      · intro ds vis stk fin
        cases ds with
        | nil => rw [dfsDeps_nil, dfsDepsF_nil]; rfl
        | cons d ds' =>
            rw [dfsDeps_cons, dfsDepsF_cons, dfsVisit_zero, dfsVisitF_zero]
            rfl
  | succ f ih =>
      have P1 : ∀ n vis stk fin, dfsVisit (f + 1) E n vis stk =
          Except.map Prod.fst (dfsVisitF (f + 1) E n vis fin stk) := by
        intro n vis stk fin
        rw [dfsVisit_succ, dfsVisitF_succ]
        by_cases h1 : stk.contains n = true
        · rw [if_pos h1, if_pos h1]; rfl
        · rw [if_neg h1, if_neg h1]
          by_cases h2 : vis.contains n = true
          · rw [if_pos h2, if_pos h2]; rfl
          · rw [if_neg h2, if_neg h2]
            rw [ih.2 (E n) (n :: vis) (n :: stk) fin]
            cases hd : dfsDepsF f E (E n) (n :: vis) fin (n :: stk) with
            | ok pr => cases pr with | mk v1 f1 => rfl
            | error e => rfl
      refine ⟨P1, ?_⟩
      intro ds
      induction ds with
      | nil => intro vis stk fin; rw [dfsDeps_nil, dfsDepsF_nil]; rfl
      | cons d ds' ihds =>
          intro vis stk fin
          rw [dfsDeps_cons, dfsDepsF_cons, P1 d vis stk fin]
          cases hv : dfsVisitF (f + 1) E d vis fin stk with
          | ok pr =>
              cases pr with
              | mk v1 f1 =>
                  simp only [Except.map]
                  exact ihds v1 stk f1
          | error e => rfl

/-- The top-level loop of the instrumented dfs also erases to the
original. -/
theorem dfsAll_eq_dfsAllF (E : String → List String) (fuel : Nat) :
    ∀ (names vis fin : List String),
      dfsAll fuel E names vis =
        Except.map (fun _ => ()) (dfsAllF fuel E names vis fin) := by
  intro names
  induction names with
  | nil => intro vis fin; rfl
  | cons n rest ih =>
      intro vis fin
      simp only [dfsAll, dfsAllF]
      rw [(dfs_eq_dfsF E fuel).1 n vis [] fin]
      cases hv : dfsVisitF fuel E n vis fin [] with
      | ok pr =>
          cases pr with
          | mk v1 f1 =>
              simp only [Except.map]
              exact ih v1 f1
      | error e => rfl

/-- Errors out of the top-level dfs loop are only SR-5 or fuel
exhaustion. -/
theorem dfsAll_error_classified (E : String → List String) (fuel : Nat) :
    ∀ (names vis : List String) (e : CheckErr),
      dfsAll fuel E names vis = .error e →
      e = .semanticE .sr5 ∨ e = .fuelOutE := by
  intro names
  induction names with
  | nil => intro vis e h; simp [dfsAll] at h
  | cons n rest ih =>
      intro vis e h
      simp only [dfsAll] at h
      cases hv : dfsVisit fuel E n vis [] with
      | ok vis' => rw [hv] at h; exact ih vis' e h
      | error e' =>
          rw [hv] at h
          injection h with he
          subst he
          exact (dfs_error_classified E fuel).1 n vis [] e' hv

/-- The top-level dfs loop never runs out of fuel when the fuel exceeds
the size of a closed universe containing all start names. -/
theorem dfsAll_no_fuelOut (E : String → List String) (U : List String)
    (hclo : ∀ u, ∀ w ∈ E u, w ∈ U) (fuel : Nat)
    (hfuel : U.toFinset.card < fuel) :
    ∀ (names vis : List String), (∀ n ∈ names, n ∈ U) →
      dfsAll fuel E names vis ≠ .error .fuelOutE := by
  intro names
  induction names with
  | nil => intro vis _ h; simp [dfsAll] at h
  | cons n rest ih =>
      intro vis hns h
      simp only [dfsAll] at h
      cases hv : dfsVisit fuel E n vis [] with
      | ok vis' =>
          rw [hv] at h
          exact ih vis' (fun n' hn' => hns n' (List.mem_cons_of_mem n hn')) h
      | error e' =>
          rw [hv] at h
          injection h with he
          subst he
          have hcard : (U.toFinset \ vis.toFinset).card < fuel :=
            lt_of_le_of_lt (Finset.card_le_card (Finset.sdiff_subset)) hfuel
          exact (dfs_no_fuelOut E U hclo fuel).1 n vis []
            (hns n (List.mem_cons_self n rest)) hcard hv

/-- Post-condition of the instrumented dfs: the invariant is preserved,
visited and finish lists only grow, the visited node ends up finished,
and every dependency of a processed list ends up finished. -/
theorem dfsF_post (E : String → List String) : ∀ f : Nat,
    (∀ n vis fin stk vis' fin', DfsInv E vis fin stk →
        dfsVisitF f E n vis fin stk = .ok (vis', fin') →
        DfsInv E vis' fin' stk ∧ (∀ x ∈ fin, x ∈ fin') ∧
          (∀ x ∈ vis, x ∈ vis') ∧ n ∈ fin') ∧
    (∀ ds vis fin stk vis' fin', DfsInv E vis fin stk →
        dfsDepsF f E ds vis fin stk = .ok (vis', fin') →
        DfsInv E vis' fin' stk ∧ (∀ x ∈ fin, x ∈ fin') ∧
          (∀ x ∈ vis, x ∈ vis') ∧ (∀ d ∈ ds, d ∈ fin')) := by
  intro f
  induction f with
  | zero =>
      constructor
      · intro n vis fin stk vis' fin' _ h
        rw [dfsVisitF_zero] at h
        simp at h
      · intro ds vis fin stk vis' fin' hinv h
        cases ds with
        | nil =>
            rw [dfsDepsF_nil] at h
            injection h with h1
            injection h1 with hv hf
            subst hv hf
            exact ⟨hinv, fun x hx => hx, fun x hx => hx, fun d hd => absurd hd (by simp)⟩
        | cons d ds' =>
            rw [dfsDepsF_cons, dfsVisitF_zero] at h
            simp at h
  | succ f ih =>
      have P1 : ∀ n vis fin stk vis' fin', DfsInv E vis fin stk →
          dfsVisitF (f + 1) E n vis fin stk = .ok (vis', fin') →
          DfsInv E vis' fin' stk ∧ (∀ x ∈ fin, x ∈ fin') ∧
            (∀ x ∈ vis, x ∈ vis') ∧ n ∈ fin' := by
        intro n vis fin stk vis' fin' hinv h
        rw [dfsVisitF_succ] at h
        by_cases h1 : stk.contains n = true
        · rw [if_pos h1] at h; simp at h
        · rw [if_neg h1] at h
          have hnstk : n ∉ stk := fun hm => h1 (contains_iff_mem.mpr hm)
          by_cases h2 : vis.contains n = true
          · rw [if_pos h2] at h
            injection h with hp
            injection hp with hv hf
            subst hv hf
            have hnfin : n ∈ fin := by
              rcases (hinv.1 n).mp (contains_iff_mem.mp h2) with hf | hs
              · exact hf
              · exact absurd hs hnstk
            exact ⟨hinv, fun x hx => hx, fun x hx => hx, hnfin⟩
          · rw [if_neg h2] at h
            have hnvis : n ∉ vis := fun hm => h2 (contains_iff_mem.mpr hm)
            have hnfin0 : n ∉ fin := fun hm => hnvis ((hinv.1 n).mpr (Or.inl hm))
            have hinv' : DfsInv E (n :: vis) fin (n :: stk) := by
              refine ⟨?_, hinv.2.1, hinv.2.2.1, ?_⟩
              · intro x
                simp only [List.mem_cons]
                rcases hinv with ⟨hm, _⟩
                constructor
                · rintro (rfl | hx)
                  · exact Or.inr (Or.inl rfl)
                  · rcases (hm x).mp hx with hf | hs
                    · exact Or.inl hf
                    · exact Or.inr (Or.inr hs)
                · rintro (hf | rfl | hs)
                  · exact Or.inr ((hm x).mpr (Or.inl hf))
                  · exact Or.inl rfl
                  · exact Or.inr ((hm x).mpr (Or.inr hs))
              · intro x hx
                simp only [List.mem_cons]
                rintro (rfl | hs)
                · exact hnfin0 hx
                · exact hinv.2.2.2 x hx hs
            cases hd : dfsDepsF f E (E n) (n :: vis) fin (n :: stk) with
            | ok pr =>
                cases pr with
                | mk v1 f1 =>
                    rw [hd] at h
                    injection h with hp
                    injection hp with hv hf
                    subst hv hf
                    have post := ih.2 (E n) (n :: vis) fin (n :: stk) v1 f1 hinv' hd
                    rcases post with ⟨pinv, pfin, pvis, pdeps⟩
                    have hnf1 : n ∉ f1 := fun hm =>
                      pinv.2.2.2 n hm (List.mem_cons_self n stk)
                    refine ⟨⟨?_, ?_, ?_, ?_⟩, ?_, ?_, List.mem_cons_self n f1⟩
                    · intro x
                      have hm1 := pinv.1 x
                      simp only [List.mem_cons] at hm1 ⊢
                      constructor
                      · intro hx
                        rcases hm1.mp hx with hf | rfl | hs
                        · exact Or.inl (Or.inr hf)
                        · exact Or.inl (Or.inl rfl)
                        · exact Or.inr hs
                      · rintro ((rfl | hf) | hs)
                        · exact hm1.mpr (Or.inr (Or.inl rfl))
                        · exact hm1.mpr (Or.inl hf)
                        · exact hm1.mpr (Or.inr (Or.inr hs))
                    · exact TopoOk.cons pdeps pinv.2.1
                    · exact List.nodup_cons.mpr ⟨hnf1, pinv.2.2.1⟩
                    · intro x hx
                      rcases List.mem_cons.mp hx with rfl | hf
                      · exact hnstk
                      · intro hs
                        exact pinv.2.2.2 x hf (List.mem_cons_of_mem n hs)
                    · exact fun x hx => List.mem_cons_of_mem n (pfin x hx)
                    · exact fun x hx => pvis x (List.mem_cons_of_mem n hx)
            | error e =>
                rw [hd] at h
                cases h
      refine ⟨P1, ?_⟩
      intro ds
      induction ds with
      | nil =>
          intro vis fin stk vis' fin' hinv h
          rw [dfsDepsF_nil] at h
          injection h with hp
          injection hp with hv hf
          subst hv hf
          exact ⟨hinv, fun x hx => hx, fun x hx => hx, fun d hd => absurd hd (by simp)⟩
      | cons d ds' ihds =>
          intro vis fin stk vis' fin' hinv h
          rw [dfsDepsF_cons] at h
          cases hv : dfsVisitF (f + 1) E d vis fin stk with
          | ok pr =>
              cases pr with
              | mk v1 f1 =>
                  rw [hv] at h
                  have post1 := P1 d vis fin stk v1 f1 hinv hv
                  have post2 := ihds v1 f1 stk vis' fin' post1.1 h
                  refine ⟨post2.1, ?_, ?_, ?_⟩
                  · exact fun x hx => post2.2.1 x (post1.2.1 x hx)
                  · exact fun x hx => post2.2.2.1 x (post1.2.2.1 x hx)
                  · intro d' hd'
                    rcases List.mem_cons.mp hd' with rfl | hr
                    · exact post2.2.1 d' post1.2.2.2
                    · exact post2.2.2.2 d' hr
          | error e =>
              rw [hv] at h
              cases h

/-- Post-condition of the instrumented top-level loop: starting from the
invariant with an empty stack, it returns with the invariant intact and
every start name finished. -/
theorem dfsAllF_post (E : String → List String) (fuel : Nat) :
    ∀ (names vis fin vis' fin' : List String), DfsInv E vis fin [] →
      dfsAllF fuel E names vis fin = .ok (vis', fin') →
      DfsInv E vis' fin' [] ∧ (∀ x ∈ fin, x ∈ fin') ∧
        (∀ n ∈ names, n ∈ fin') := by
  intro names
  induction names with
  | nil =>
      intro vis fin vis' fin' hinv h
      injection h with hp
      injection hp with hv hf
      subst hv hf
      exact ⟨hinv, fun x hx => hx, fun n hn => absurd hn (by simp)⟩
  | cons n rest ih =>
      intro vis fin vis' fin' hinv h
      simp only [dfsAllF] at h
      cases hv : dfsVisitF fuel E n vis fin [] with
      | ok pr =>
          cases pr with
          | mk v1 f1 =>
              rw [hv] at h
              have post1 := (dfsF_post E fuel).1 n vis fin [] v1 f1 hinv hv
              have post2 := ih v1 f1 vis' fin' post1.1 h
              refine ⟨post2.1, ?_, ?_⟩
              · exact fun x hx => post2.2.1 x (post1.2.1 x hx)
              · intro n' hn'
                rcases List.mem_cons.mp hn' with rfl | hr
                · exact post2.2.1 n' post1.2.2.2
                · exact post2.2.2 n' hr
      | error e =>
          rw [hv] at h
          cases h

/-- In a duplicate-free topological finish list, every edge goes to a
strictly later position. -/
theorem topoOk_edge_lt (E : String → List String) :
    ∀ (l : List String), TopoOk E l → l.Nodup →
      ∀ a b, a ∈ l → b ∈ E a → b ∈ l ∧ idxIn l a < idxIn l b := by
  intro l ht
  induction ht with
  | nil => intro _ a b ha _; cases ha
  | cons hsucc hrest ih =>
      rename_i u rest
      intro hnd a b ha hb
      have hnd' := List.nodup_cons.mp hnd
      rcases List.mem_cons.mp ha with rfl | har
      · have hbr : b ∈ rest := hsucc b hb
        have hub : ¬ a = b := fun he => hnd'.1 (by rw [he]; exact hbr)
        refine ⟨List.mem_cons_of_mem a hbr, ?_⟩
        have hidx1 : idxIn (a :: rest) a = 0 := by simp [idxIn]
        have hidx2 : idxIn (a :: rest) b = idxIn rest b + 1 := by simp [idxIn, hub]
        rw [hidx1, hidx2]
        omega
      · have h2 := ih hnd'.2 a b har hb
        have hua : ¬ u = a := fun he => hnd'.1 (by rw [he]; exact har)
        have hub : ¬ u = b := fun he => hnd'.1 (by rw [he]; exact h2.1)
        refine ⟨List.mem_cons_of_mem u h2.1, ?_⟩
        simp only [idxIn, if_neg hua, if_neg hub]
        omega

/-- Positions along a transitive edge path increase strictly, so no list
member can reach itself. -/
theorem transGen_idx_lt (E : String → List String) (l : List String)
    (h : ∀ a b, a ∈ l → b ∈ E a → b ∈ l ∧ idxIn l a < idxIn l b) :
    ∀ a c, Relation.TransGen (fun x y => y ∈ E x) a c → a ∈ l →
      c ∈ l ∧ idxIn l a < idxIn l c := by
  intro a c hT
  induction hT with
  | single hb => intro ha; exact h _ _ ha hb
  | tail hT hbc ih =>
      intro ha
      have h1 := ih ha
      have h2 := h _ _ h1.1 hbc
      exact ⟨h2.1, Nat.lt_trans h1.2 h2.2⟩

/-- Membership in a deduplicated list: exactly the fresh elements of the
input survive. -/
theorem mem_dedupFirst : ∀ (l seen : List String) (x : String),
    x ∈ dedupFirst seen l ↔ (x ∈ l ∧ x ∉ seen) := by
  intro l
  induction l with
  | nil => intro seen x; simp [dedupFirst]
  | cons n rest ih =>
      intro seen x
      by_cases h : seen.contains n = true
      · have hn : n ∈ seen := contains_iff_mem.mp h
        simp only [dedupFirst, if_pos h, ih, List.mem_cons]
        constructor
        · rintro ⟨hr, hns⟩
          exact ⟨Or.inr hr, hns⟩
        · rintro ⟨rfl | hr, hns⟩
          · exact absurd hn hns
          · exact ⟨hr, hns⟩
      · have hn : n ∉ seen := fun hm => h (contains_iff_mem.mpr hm)
        simp only [dedupFirst, if_neg h, List.mem_cons, ih, List.mem_append,
          List.mem_singleton, List.not_mem_nil, or_false]
        constructor
        · rintro (rfl | ⟨hr, hns⟩)
          · exact ⟨Or.inl rfl, hn⟩
          · exact ⟨Or.inr hr, fun hs => hns (Or.inl hs)⟩
        · rintro ⟨rfl | hr, hns⟩
          · exact Or.inl rfl
          · by_cases hx : x = n
            · exact Or.inl hx
            · exact Or.inr ⟨hr, fun hor => hor.elim hns hx⟩

/-- Setting a key absent from the association list appends the entry. -/
theorem assocSet_fresh : ∀ (m : List (String × List String)) (k : String)
    (v : List String), (∀ p ∈ m, p.1 ≠ k) → assocSet m k v = m ++ [(k, v)] := by
  intro m
  induction m with
  | nil => intro k v _; rfl
  | cons p rest ih =>
      intro k v hfresh
      have hp : p.1 ≠ k := hfresh p (List.mem_cons_self p rest)
      simp only [assocSet, if_neg hp, List.cons_append]
      rw [ih k v (fun q hq => hfresh q (List.mem_cons_of_mem p hq))]

/-- With duplicate-free component names, the uses-map fold is a plain
association list in declaration order. -/
theorem buildFoldAux : ∀ (comps : List ComponentDecl)
    (m : List (String × List String)),
    (∀ c ∈ comps, ∀ p ∈ m, p.1 ≠ c.name) →
    (comps.map ComponentDecl.name).Nodup →
    comps.foldl (fun m c => assocSet m c.name (collectUsedComponents c.body)) m =
      m ++ comps.map (fun c => (c.name, collectUsedComponents c.body)) := by
  intro comps
  induction comps with
  | nil => intro m _ _; simp
  | cons c rest ih =>
      intro m hfresh hnd
      simp only [List.map, List.nodup_cons] at hnd
      simp only [List.foldl_cons]
      rw [assocSet_fresh m c.name (collectUsedComponents c.body)
        (fun p hp => hfresh c (List.mem_cons_self c rest) p hp)]
      rw [ih (m ++ [(c.name, collectUsedComponents c.body)]) ?_ hnd.2]
      · simp
      · intro c' hc' p hp
        rcases List.mem_append.mp hp with hpm | hps
        · exact hfresh c' (List.mem_cons_of_mem c hc') p hpm
        · have hpe : p = (c.name, collectUsedComponents c.body) :=
            List.mem_singleton.mp hps
          rw [hpe]
          intro he
          exact hnd.1 (List.mem_map.mpr ⟨c', hc', he.symm⟩)

/-- The uses map under duplicate-free names. -/
theorem buildUsesMap_eq (comps : List ComponentDecl)
    (hnd : (comps.map ComponentDecl.name).Nodup) :
    buildUsesMap comps =
      comps.map (fun c => (c.name, collectUsedComponents c.body)) := by
  have h := buildFoldAux comps [] (fun _ _ _ h => absurd h (by simp)) hnd
  simpa [buildUsesMap] using h

/-- Reading an association list one entry at a time. -/
theorem usesGet_cons (k : String) (v : List String)
    (m : List (String × List String)) (a : String) :
    usesGet ((k, v) :: m) a = if k = a then v else usesGet m a := by
  by_cases h : k = a
  · rw [if_pos h]
    unfold usesGet
    rw [List.find?_cons_of_pos]
    · rfl
    · simpa using h
  · rw [if_neg h]
    unfold usesGet
    rw [List.find?_cons_of_neg]
    simpa using h

/-- Membership in the association-list form of the uses map, under
duplicate-free component names. -/
theorem mem_usesGet_map : ∀ (comps : List ComponentDecl) (a b : String),
    (comps.map ComponentDecl.name).Nodup →
    (b ∈ usesGet (comps.map fun c => (c.name, collectUsedComponents c.body)) a ↔
      ∃ c ∈ comps, c.name = a ∧ b ∈ collectUsedComponents c.body) := by
  intro comps
  induction comps with
  | nil => intro a b _; simp [usesGet]
  | cons c rest ih =>
      intro a b hnd
      simp only [List.map, List.nodup_cons] at hnd
      rw [List.map_cons, usesGet_cons]
      by_cases hc : c.name = a
      · rw [if_pos hc]
        constructor
        · intro hb; exact ⟨c, List.mem_cons_self c rest, hc, hb⟩
        · rintro ⟨c', hc', hcn, hb⟩
          rcases List.mem_cons.mp hc' with rfl | hcr
          · exact hb
          · exact absurd (List.mem_map.mpr ⟨c', hcr, by rw [hcn, hc]⟩) hnd.1
      · rw [if_neg hc, ih a b hnd.2]
        constructor
        · rintro ⟨c', hc', hcn, hb⟩
          exact ⟨c', List.mem_cons_of_mem c hc', hcn, hb⟩
        · rintro ⟨c', hc', hcn, hb⟩
          rcases List.mem_cons.mp hc' with rfl | hcr
          · exact absurd hcn hc
          · exact ⟨c', hcr, hcn, hb⟩

/-- Reading the uses map of a program with duplicate-free component names
is exactly the claim's component-use edge relation. -/
theorem mem_usesGet_iff (prog : Program)
    (hnd : (prog.components.map ComponentDecl.name).Nodup) (a b : String) :
    b ∈ usesGet (buildUsesMap prog.components) a ↔ specUseEdge prog a b := by
  rw [buildUsesMap_eq prog.components hnd]
  exact mem_usesGet_map prog.components a b hnd

/-- A fail-fast for-loop succeeds when every iteration does. -/
theorem eachCheck_ok_of {α : Type} (f : α → Except CheckErr Unit) :
    ∀ (l : List α), (∀ x ∈ l, f x = .ok ()) → eachCheck f l = .ok () := by
  intro l
  induction l with
  | nil => intro _; rfl
  | cons x rest ih =>
      intro hall
      simp only [eachCheck]
      rw [hall x (List.mem_cons_self x rest)]
      exact ih (fun y hy => hall y (List.mem_cons_of_mem x hy))

/-- C7: with duplicate-free component names and every `use` naming a
declared component (so the SR-6 pre-scan inside the SR-5 pass cannot
fire), checkSR5ComponentCycles raises SR-5 exactly when the component-use
graph — whose edges are the `use` statements collected recursively
through nested conditionals, over component declarations only, pages'
uses never participating — has a cycle, and returns normally exactly
when that graph is acyclic (so shared non-cyclic diamonds are
accepted). -/
theorem c7_sr5_iff_use_cycle (prog : Program)
    (hnd : (prog.components.map ComponentDecl.name).Nodup)
    (hdecl : allUsesDeclared prog) :
    (checkSR5 prog = .error (.semanticE .sr5) ↔ specHasUseCycle prog) ∧
    (checkSR5 prog = .ok () ↔ ¬ specHasUseCycle prog) := by
  have h1 : eachCheck (fun c =>
      eachCheck (fun u =>
        if (componentNamesOf prog).contains u then .ok ()
        else .error (.semanticE .sr6))
        (usesGet (buildUsesMap prog.components) c.name)) prog.components
      = .ok () := by
    apply eachCheck_ok_of
    intro c hc
    apply eachCheck_ok_of
    intro u hu
    rcases (mem_usesGet_iff prog hnd c.name u).mp hu with ⟨c', hc', _, hub⟩
    rw [if_pos (contains_iff_mem.mpr (hdecl.1 c' hc' u hub))]
  have h2 : eachCheck (fun p =>
      eachCheck (fun u =>
        if (componentNamesOf prog).contains u then .ok ()
        else .error (.semanticE .sr6))
        (collectUsedComponents p.body)) prog.pages = .ok () := by
    apply eachCheck_ok_of
    intro p hp
    apply eachCheck_ok_of
    intro u hu
    rw [if_pos (contains_iff_mem.mpr (hdecl.2 p hp u hu))]
  have hstep : checkSR5 prog =
      dfsAll (prog.components.length + 2)
        (usesGet (buildUsesMap prog.components))
        (dedupFirst [] (componentNamesOf prog)) [] := by
    simp only [checkSR5]
    rw [h1, h2]
    rfl
  have hclo : ∀ u, ∀ w ∈ usesGet (buildUsesMap prog.components) u,
      w ∈ componentNamesOf prog := by
    intro u w hw
    rcases (mem_usesGet_iff prog hnd u w).mp hw with ⟨c', hc', _, hub⟩
    exact hdecl.1 c' hc' w hub
  have hfuel : (componentNamesOf prog).toFinset.card <
      prog.components.length + 2 := by
    have hle : (componentNamesOf prog).toFinset.card ≤
        (componentNamesOf prog).length := List.toFinset_card_le _
    have hlen : (componentNamesOf prog).length = prog.components.length := by
      simp [componentNamesOf]
    omega
  have hnames : ∀ n ∈ dedupFirst [] (componentNamesOf prog),
      n ∈ componentNamesOf prog :=
    fun n hn => ((mem_dedupFirst _ [] n).mp hn).1
  have hsound : dfsAll (prog.components.length + 2)
      (usesGet (buildUsesMap prog.components))
      (dedupFirst [] (componentNamesOf prog)) [] =
        .error (.semanticE .sr5) → specHasUseCycle prog := by
    intro h
    rcases dfsAll_sound (usesGet (buildUsesMap prog.components))
      (prog.components.length + 2) (dedupFirst [] (componentNamesOf prog)) [] h
      with ⟨c, hc⟩
    exact ⟨c, Relation.TransGen.mono
      (fun a b hab => (mem_usesGet_iff prog hnd a b).mp hab) hc⟩
  have hcomplete : dfsAll (prog.components.length + 2)
      (usesGet (buildUsesMap prog.components))
      (dedupFirst [] (componentNamesOf prog)) [] = .ok () →
      ¬ specHasUseCycle prog := by
    intro hok hcyc
    have heq := dfsAll_eq_dfsAllF (usesGet (buildUsesMap prog.components))
      (prog.components.length + 2) (dedupFirst [] (componentNamesOf prog)) [] []
    rw [hok] at heq
    cases hF : dfsAllF (prog.components.length + 2)
        (usesGet (buildUsesMap prog.components))
        (dedupFirst [] (componentNamesOf prog)) [] [] with
    | ok pr =>
        cases pr with
        | mk vis' fin' =>
            have hinv0 : DfsInv (usesGet (buildUsesMap prog.components))
                [] [] [] := by
              refine ⟨?_, TopoOk.nil, List.nodup_nil, ?_⟩
              · intro x; simp
              · intro x hx; simp at hx
            have post := dfsAllF_post (usesGet (buildUsesMap prog.components))
              (prog.components.length + 2) (dedupFirst [] (componentNamesOf prog))
              [] [] vis' fin' hinv0 hF
            rcases post with ⟨⟨_, htopo, hndfin, _⟩, _, hstart⟩
            rcases hcyc with ⟨a, ha⟩
            have haE : Relation.TransGen
                (fun x y => y ∈ usesGet (buildUsesMap prog.components) x) a a :=
              Relation.TransGen.mono
                (fun x y hxy => (mem_usesGet_iff prog hnd x y).mpr hxy) ha
            have haC : a ∈ componentNamesOf prog := by
              have hstep1 : ∃ b, specUseEdge prog a b := by
                rcases Relation.TransGen.head'_iff.mp ha with ⟨b, hb, _⟩
                exact ⟨b, hb⟩
              rcases hstep1 with ⟨b, hb⟩
              rcases hb with ⟨c', hc', hcn, _⟩
              exact List.mem_map.mpr ⟨c', hc', hcn⟩
            have hafin : a ∈ fin' :=
              hstart a ((mem_dedupFirst _ [] a).mpr ⟨haC, by simp⟩)
            have hlt := transGen_idx_lt (usesGet (buildUsesMap prog.components))
              fin' (topoOk_edge_lt (usesGet (buildUsesMap prog.components))
                fin' htopo hndfin) a a haE hafin
            exact absurd hlt.2 (lt_irrefl _)
    | error e =>
        rw [hF] at heq
        simp [Except.map] at heq
  have hcases : dfsAll (prog.components.length + 2)
      (usesGet (buildUsesMap prog.components))
      (dedupFirst [] (componentNamesOf prog)) [] = .ok () ∨
      dfsAll (prog.components.length + 2)
      (usesGet (buildUsesMap prog.components))
      (dedupFirst [] (componentNamesOf prog)) [] =
        .error (.semanticE .sr5) := by
    cases hr : dfsAll (prog.components.length + 2)
        (usesGet (buildUsesMap prog.components))
        (dedupFirst [] (componentNamesOf prog)) [] with
    | ok u => cases u; exact Or.inl rfl
    | error e =>
        rcases dfsAll_error_classified (usesGet (buildUsesMap prog.components))
          (prog.components.length + 2) (dedupFirst [] (componentNamesOf prog))
          [] e hr with he | he
        · subst he; exact Or.inr rfl
        · subst he
          exact absurd hr (dfsAll_no_fuelOut
            (usesGet (buildUsesMap prog.components)) (componentNamesOf prog)
            hclo (prog.components.length + 2) hfuel
            (dedupFirst [] (componentNamesOf prog)) [] hnames)
  rw [hstep]
  constructor
  · constructor
    · exact hsound
    · intro hcyc
      rcases hcases with hok | hsr5
      · exact absurd hcyc (hcomplete hok)
      · exact hsr5
  · constructor
    · exact fun hok => hcomplete hok
    · intro hnc
      rcases hcases with hok | hsr5
      · exact hok
      · exact absurd (hsound hsr5) hnc

/-- The C7 characterisation applied to the two-component cycle program:
its hypotheses hold and the checker reports SR-5 on it. -/
theorem c7_sr5_iff_use_cycle_witness :
    ((c7Prog.components.map ComponentDecl.name).Nodup ∧
      allUsesDeclared c7Prog) ∧
    checkSR5 c7Prog = .error (.semanticE .sr5) := by
  have hnd : (c7Prog.components.map ComponentDecl.name).Nodup := by decide
  have hdecl : allUsesDeclared c7Prog := by
    constructor <;> decide
  have hedgeAB : specUseEdge c7Prog "CompA" "CompB" := by
    refine ⟨{ name := "CompA", body := [.use "CompB"] }, ?_, rfl, ?_⟩
    · exact List.mem_cons_self _ _
    · decide
  have hedgeBA : specUseEdge c7Prog "CompB" "CompA" := by
    refine ⟨{ name := "CompB", body := [.use "CompA"] }, ?_, rfl, ?_⟩
    · exact List.mem_cons_of_mem _ (List.mem_cons_self _ _)
    · decide
  exact ⟨⟨hnd, hdecl⟩,
    ((c7_sr5_iff_use_cycle c7Prog hnd hdecl).1).mpr
      ⟨"CompA", Relation.TransGen.head hedgeAB
        (Relation.TransGen.single hedgeBA)⟩⟩

end Swan
